import Mathlib

/-!
# Verilator process wrapper

A shallow embedding of `verilator/private/verilator_process_wrapper.cc`
and a verification of its argument parsing, path substitution, exit-code
handling and output reorganisation.

Conventions of the embedding:

* a `std::string` is a list of characters (`Str`); a character stands for one
  `char` of the C++ string;
* a `std::map<std::string, std::string>` is an association list kept sorted by
  key (its iteration order);
* the replacement `while` loops of `parse_args`, which do not end for an empty
  key, take a `fuel` argument bounding their number of iterations; `none`
  means the bound was reached before the loop ended;
* the operating system (environment, runfiles, subprocesses) is a `Host`
  record of functions and the file system an explicit state `FS`, which the
  wrapped command may change;
* an exception of `std::filesystem` is not caught anywhere in the program and
  ends the run (`Exit.terminated`).
-/

namespace VerilatorWrapper

/-- A `std::string`. -/
abbrev Str := List Char

/-! ## String primitives of the C++ standard library -/

/-- The comparison `a < b` of two `std::string`s (lexicographic). -/
def str_lt : Str → Str → Bool
  | [], [] => false
  | [], _ :: _ => true
  | _ :: _, [] => false
  | a :: as, b :: bs => if a.toNat < b.toNat then true else if a = b then str_lt as bs else false

/-- The search of `std::string::find` over a suffix `s` of the subject that
starts at index `pos`: the first index at which `k` occurs. -/
def find_from (k : Str) : Str → Nat → Option Nat
  | [], pos => if k = [] then some pos else none
  | c :: s, pos => if k.isPrefixOf (c :: s) then some pos else find_from k s (pos + 1)

/-- The call `s.find(k, pos)`: the smallest index `p ≥ pos` at which `k`
occurs in `s`, `none` for `std::string::npos`. -/
def find (s k : Str) (pos : Nat) : Option Nat :=
  if pos ≤ s.length then find_from k (s.drop pos) pos else none

/-- The call `s.replace(pos, len, v)`. -/
def replace (s : Str) (pos len : Nat) (v : Str) : Str :=
  s.take pos ++ v ++ s.drop (pos + len)

/-- The call `starts_with(str, prefix)` (lines 62-65). -/
def starts_with (str pre : Str) : Bool :=
  decide (pre.length ≤ str.length) && (str.take pre.length == pre)

/-- The conversion of a `std::string` to a C string and back: the text up to
the first NUL character. -/
def c_str (s : Str) : Str :=
  s.takeWhile (fun c => c ≠ Char.ofNat 0)

/-! ## Paths and runfiles -/

/-- The runfiles object: its `Rlocation` lookup. -/
abbrev Runfiles := Str → Str

/-- The function `normalize_path` (lines 73-75): `make_preferred` turns every
`/` into the preferred separator, which is `\` when `_WIN32` is defined and
`/` itself otherwise. -/
def normalize_path (win32 : Bool) (path : Str) : Str :=
  if win32 then path.map (fun c => if c = '/' then Char.ofNat 92 else c) else path

/-- The function `resolve_path` (lines 77-86). -/
def resolve_path (win32 : Bool) (path : Str) (runfiles : Option Runfiles) : Str :=
  match runfiles with
  | some rlocation =>
    let resolved_path := rlocation path
    if resolved_path ≠ [] then resolved_path else normalize_path win32 path
  | none => normalize_path win32 path

/-! ## Parsed arguments -/

/-- The assignment `m[k] = v` on a `std::map`, kept sorted by key. -/
def map_assign : List (Str × Str) → Str → Str → List (Str × Str)
  | [], k, v => [(k, v)]
  | (k', v') :: rest, k, v =>
    if str_lt k k' then (k, v) :: (k', v') :: rest
    else if k = k' then (k, v) :: rest
    else (k', v') :: map_assign rest k v

/-- The struct `Args` (lines 32-53). -/
structure Args where
  verilator_binary : Str := []
  source_mappings : List (Str × Str) := []
  output_mappings : List (Str × Str) := []
  output_srcs : Str := []
  output_hdrs : Str := []
  capture_output : Bool := false
  verilator_args : List Str := []
  deriving DecidableEq, Repr

/-- The replacement loop of one mapping (lines 121-126 and 134-139):
`while ((pos = modified_arg.find(original, pos)) != npos)` replaces the
occurrence found and moves `pos` past the inserted text. -/
def replace_loop : Nat → Str → Str → Str → Nat → Option Str
  | 0, _, _, _, _ => none
  | fuel + 1, original, resolved, modified_arg, pos =>
    match find modified_arg original pos with
    | none => some modified_arg
    | some p =>
      replace_loop fuel original resolved
        (replace modified_arg p original.length resolved) (p + resolved.length)

/-- The loop over the entries of one map (lines 117-127 and 130-140), in the
iteration order of the map. -/
def replace_mappings (fuel : Nat) : List (Str × Str) → Str → Option Str
  | [], modified_arg => some modified_arg
  | (original, resolved) :: rest, modified_arg =>
    match replace_loop fuel original resolved modified_arg 0 with
    | none => none
    | some modified_arg' => replace_mappings fuel rest modified_arg'

/-- The substitution pass applied to one pass-through argument (lines
112-142): the source mappings, then the output mappings. -/
def substitute (fuel : Nat) (source_mappings output_mappings : List (Str × Str))
    (arg : Str) : Option Str :=
  match replace_mappings fuel source_mappings arg with
  | none => none
  | some modified_arg => replace_mappings fuel output_mappings modified_arg

/-- The delimiter token (line 107). -/
def DELIMITER : Str := "--".toList

/-- The flag of line 143. -/
def FLAG_VERILATOR : Str := "--verilator=".toList

/-- The flag of line 147. -/
def FLAG_SRC : Str := "--src=".toList

/-- The flag of line 152. -/
def FLAG_OUTPUT : Str := "--output=".toList

/-- The flag of line 158. -/
def FLAG_OUTPUT_SRCS : Str := "--output_srcs=".toList

/-- The flag of line 162. -/
def FLAG_OUTPUT_HDRS : Str := "--output_hdrs=".toList

/-- The flag of line 166. -/
def FLAG_CAPTURE_OUTPUT : Str := "--capture_output".toList

/-- The body of the `for` loop of `parse_args` (lines 103-172) over the
remaining tokens, with the local state `args` and `after_delimiter`. The
result is the returned status and the final `args`. -/
def parse_loop (fuel : Nat) (win32 : Bool) (runfiles : Option Runfiles) :
    List Str → Args → Bool → Option (Int × Args)
  | [], args, _ => some (0, args)
  | arg :: rest, args, after_delimiter =>
    if arg = DELIMITER then
      parse_loop fuel win32 runfiles rest args true
    else if after_delimiter then
      match substitute fuel args.source_mappings args.output_mappings arg with
      | none => none
      | some modified_arg =>
        parse_loop fuel win32 runfiles rest
          { args with verilator_args := args.verilator_args ++ [modified_arg] } after_delimiter
    else if starts_with arg FLAG_VERILATOR then
      parse_loop fuel win32 runfiles rest
        { args with verilator_binary := resolve_path win32 (arg.drop 12) runfiles }
        after_delimiter
    else if starts_with arg FLAG_SRC then
      let src_path := arg.drop 6
      parse_loop fuel win32 runfiles rest
        { args with source_mappings :=
            map_assign args.source_mappings src_path (resolve_path win32 src_path runfiles) }
        after_delimiter
    else if starts_with arg FLAG_OUTPUT then
      let output_path := arg.drop 9
      parse_loop fuel win32 runfiles rest
        { args with output_mappings :=
            map_assign args.output_mappings output_path (normalize_path win32 output_path) }
        after_delimiter
    else if starts_with arg FLAG_OUTPUT_SRCS then
      parse_loop fuel win32 runfiles rest { args with output_srcs := arg.drop 14 } after_delimiter
    else if starts_with arg FLAG_OUTPUT_HDRS then
      parse_loop fuel win32 runfiles rest { args with output_hdrs := arg.drop 14 } after_delimiter
    else if arg = FLAG_CAPTURE_OUTPUT then
      parse_loop fuel win32 runfiles rest { args with capture_output := true } after_delimiter
    else
      some (1, args)

/-- The function `parse_args` (lines 98-176). `argv` holds the program name
and the tokens; the result is the returned status and the value of
`out_args`, which is assigned only when parsing succeeds. -/
def parse_args (fuel : Nat) (win32 : Bool) (out_args : Args) (argv : List Str)
    (runfiles : Option Runfiles) : Option (Int × Args) :=
  match parse_loop fuel win32 runfiles (argv.drop 1) {} false with
  | none => none
  | some (status, args) => if status = 0 then some (0, args) else some (status, out_args)

/-! ## The file system -/

/-- A path after resolution: whether it starts at the root, and its
components (without empty and `.` components). Paths are assumed free of
`..` and of symbolic links, so that two paths name the same file exactly when
they are equal. -/
structure Path where
  absolute : Bool
  comps : List Str
  deriving DecidableEq, Repr

/-- The pieces of a string between its `/` separators. -/
def split_path : Str → List Str
  | [] => [[]]
  | c :: s =>
    if c = '/' then [] :: split_path s
    else match split_path s with
      | [] => [[c]]
      | h :: t => (c :: h) :: t

/-- The file a path string names. -/
def path_of (s : Str) : Path :=
  { absolute := decide (s.head? = some '/'),
    comps := (split_path s).filter (fun c => decide (c ≠ [] ∧ c ≠ ['.'])) }

/-- The path `p / name` of an entry of directory `p`. -/
def Path.child (p : Path) (name : Str) : Path :=
  { p with comps := p.comps ++ [name] }

/-- The directory that holds `p`. -/
def Path.parent (p : Path) : Path :=
  { p with comps := p.comps.dropLast }

/-- What a path holds: a regular file with its content, or a directory. -/
inductive Node where
  | file (content : Str)
  | dir
  deriving DecidableEq, Repr

/-- The state of the file system: the nodes of the paths that exist. The
first entry of a path is the one in effect. -/
abbrev FS := List (Path × Node)

/-- The entry of `p` in the state. -/
def fs_lookup : FS → Path → Option Node
  | [], _ => none
  | (q, n) :: rest, p => if q = p then some n else fs_lookup rest p

/-- The node at `p`: the root and the working directory always exist. -/
def node_at (fs : FS) (p : Path) : Option Node :=
  if p.comps = [] then some Node.dir else fs_lookup fs p

/-- The state without `p`. -/
def fs_erase (fs : FS) (p : Path) : FS :=
  fs.filter (fun e => decide (e.1 ≠ p))

/-- The state with node `n` at `p`. -/
def fs_write (fs : FS) (p : Path) (n : Node) : FS :=
  (p, n) :: fs_erase fs p

/-- The call `fs::exists(p)`. -/
def fs_exists (fs : FS) (p : Path) : Bool :=
  (node_at fs p).isSome

/-- The call `fs::is_directory(p)`. -/
def is_directory (fs : FS) (p : Path) : Bool :=
  decide (node_at fs p = some Node.dir)

/-- The call `entry.is_regular_file()`. -/
def is_regular_file (fs : FS) (p : Path) : Bool :=
  match node_at fs p with
  | some (Node.file _) => true
  | _ => false

/-- The loop of `fs::create_directories` over the components still to visit:
an existing directory is kept, a missing one is created, and a regular file
in the way is an error (`none`, the call throws). -/
def create_directories_from (absolute : Bool) : FS → List Str → List Str → Option FS
  | fs, _, [] => some fs
  | fs, done, c :: rest =>
    let q : Path := { absolute := absolute, comps := done ++ [c] }
    match node_at fs q with
    | some Node.dir => create_directories_from absolute fs (done ++ [c]) rest
    | some (Node.file _) => none
    | none => create_directories_from absolute (fs_write fs q Node.dir) (done ++ [c]) rest

/-- The call `fs::create_directories(p)`; `none` when it throws. -/
def create_directories (fs : FS) (p : Path) : Option FS :=
  create_directories_from p.absolute fs [] p.comps

/-- The name of the entry `q` when it lies directly inside directory `d`. -/
def entry_name (d q : Path) : Option Str :=
  if q.absolute = d.absolute ∧ q.comps ≠ [] ∧ q.comps.dropLast = d.comps then q.comps.getLast?
  else none

/-- The names that `fs::directory_iterator(d)` visits: the entries directly
inside `d`, each once. -/
def directory_iterator (fs : FS) (d : Path) : List Str :=
  (fs.filterMap (fun e => entry_name d e.1)).dedup

/-- The call `fs::copy_file(src, dst, overwrite_existing, ec)`; `none` when
`ec` is set: the source is not a regular file, the target is a directory or
the source itself, or the directory of a new target does not exist. -/
def copy_file (fs : FS) (src dst : Path) : Option FS :=
  match node_at fs src with
  | some (Node.file content) =>
    match node_at fs dst with
    | some Node.dir => none
    | some (Node.file _) => if dst = src then none else some (fs_write fs dst (Node.file content))
    | none =>
      if is_directory fs dst.parent then some (fs_write fs dst (Node.file content)) else none
  | _ => none

/-- The call `fs::remove(p, ec)`; `none` when `ec` is set (a directory that
is not empty). -/
def fs_remove (fs : FS) (p : Path) : Option FS :=
  match node_at fs p with
  | some Node.dir => if directory_iterator fs p = [] then some (fs_erase fs p) else none
  | _ => some (fs_erase fs p)

/-- How a function ends: it returns a status, or an exception leaves it
(uncaught in this program, so the process is terminated). -/
inductive Exit where
  | returned (code : Int)
  | terminated
  deriving DecidableEq, Repr

/-! ## Output reorganisation -/

/-- The function `ends_with_any` (lines 185-195). -/
def ends_with_any (filename : Str) : List Str → Bool
  | [] => false
  | suffix :: rest =>
    if suffix.length ≤ filename.length ∧
        filename.drop (filename.length - suffix.length) = suffix then true
    else ends_with_any filename rest

/-- The vector `source_extensions` (line 263). -/
def source_extensions : List Str := [".cc".toList, ".cpp".toList, ".c".toList]

/-- The vector `header_extensions` (line 264). -/
def header_extensions : List Str := [".h".toList, ".hpp".toList, ".hh".toList]

/-- The destination chosen for an entry (lines 269-280): `none` when
`should_copy` stays false. -/
def dest_path (output_srcs output_hdrs filename : Str) : Option Path :=
  if output_srcs ≠ [] ∧ ends_with_any filename source_extensions then
    some ((path_of output_srcs).child filename)
  else if output_hdrs ≠ [] ∧ ends_with_any filename header_extensions then
    some ((path_of output_hdrs).child filename)
  else none

/-- The loop of `copy_and_filter_outputs` over the entries of the output
directory (lines 266-316). The first component is `some 1` when the loop
leaves the function with `return 1`. -/
def process_entries (dir_path : Path) (output_srcs output_hdrs : Str) :
    List Str → FS → Option Int × FS
  | [], fs => (none, fs)
  | filename :: rest, fs =>
    let entry := dir_path.child filename
    if is_regular_file fs entry then
      let copied : Option FS :=
        match dest_path output_srcs output_hdrs filename with
        | some dest => copy_file fs entry dest
        | none => some fs
      match copied with
      | none => (some 1, fs)
      | some fs1 =>
        if ends_with_any filename source_extensions ∨
            ends_with_any filename header_extensions then
          match fs_remove fs1 entry with
          | none => (some 1, fs1)
          | some fs2 => process_entries dir_path output_srcs output_hdrs rest fs2
        else
          match fs_remove fs1 entry with
          | none => (some 1, fs1)
          | some fs2 => process_entries dir_path output_srcs output_hdrs rest fs2
    else process_entries dir_path output_srcs output_hdrs rest fs

/-- The check of lines 320-327 and 336-343: some entry of the directory is a
regular file. -/
def has_files (fs : FS) (d : Path) : Bool :=
  (directory_iterator fs d).any (fun name => is_regular_file fs (d.child name))

/-- The verification of `copy_and_filter_outputs` (lines 318-351). -/
def verify_outputs (fs : FS) (output_srcs output_hdrs : Str) : Exit :=
  if output_srcs ≠ [] ∧ ¬ is_directory fs (path_of output_srcs) then Exit.terminated
  else if output_srcs ≠ [] ∧ ¬ has_files fs (path_of output_srcs) then Exit.returned 1
  else if output_hdrs ≠ [] ∧ ¬ is_directory fs (path_of output_hdrs) then Exit.terminated
  else if output_hdrs ≠ [] ∧ ¬ has_files fs (path_of output_hdrs) then Exit.returned 1
  else Exit.returned 0

/-- The function `copy_and_filter_outputs` (lines 240-352): how it ends and
the state of the file system it leaves. -/
def copy_and_filter_outputs (fs : FS) (output_dir output_srcs output_hdrs : Str) :
    Exit × FS :=
  if output_dir = [] ∨ (output_srcs = [] ∧ output_hdrs = []) then (Exit.returned 0, fs)
  else
    let dir_path := path_of output_dir
    if ¬ fs_exists fs dir_path ∨ ¬ is_directory fs dir_path then (Exit.returned 1, fs)
    else
      let created_srcs : Option FS :=
        if output_srcs ≠ [] then create_directories fs (path_of output_srcs) else some fs
      match created_srcs with
      | none => (Exit.terminated, fs)
      | some fs1 =>
        let created_hdrs : Option FS :=
          if output_hdrs ≠ [] then create_directories fs1 (path_of output_hdrs) else some fs1
        match created_hdrs with
        | none => (Exit.terminated, fs1)
        | some fs2 =>
          match process_entries dir_path output_srcs output_hdrs
              (directory_iterator fs2 dir_path) fs2 with
          | (some code, fs3) => (Exit.returned code, fs3)
          | (none, fs3) => (verify_outputs fs3 output_srcs output_hdrs, fs3)

/-! ## Running the wrapped command -/

/-- The host of the process: whether `_WIN32` is defined, the environment,
the runfiles object that `Runfiles::CreateForTest` returns (`none` for a null
pointer), and the two ways of running a command. `system cmd fs` is the raw
status of `std::system` and the state the command leaves; `popen cmd fs` is
`none` when `popen` fails, and otherwise the buffers that the successive
`fgets` calls deliver, the status that `pclose` returns and the state the
command leaves. -/
structure Host where
  win32 : Bool
  getenv : Str → Option Str
  runfiles : Option Runfiles
  system : Str → FS → Int × FS
  popen : Str → FS → Option (List Str × Int × FS)

/-- Modelled from the spec: the macro `WTERMSIG` of `<sys/wait.h>`, which is
not part of the sources: the signal number, the low seven bits of the wait
status (`status & 0x7f`). -/
def WTERMSIG (status : Int) : Int :=
  status % 128

/-- Modelled from the spec: the macro `WEXITSTATUS` of `<sys/wait.h>`, which
is not part of the sources: the exit code, bits 8 to 15 of the wait status
(`(status & 0xff00) >> 8`). -/
def WEXITSTATUS (status : Int) : Int :=
  (status / 256) % 256

/-- Modelled from the spec: the macro `WIFEXITED` of `<sys/wait.h>`, which is
not part of the sources: a normal exit has signal number zero. -/
def WIFEXITED (status : Int) : Bool :=
  decide (WTERMSIG status = 0)

/-- Modelled from the spec: the macro `WIFSIGNALED` of `<sys/wait.h>`, which
is not part of the sources: `((signed char) ((status & 0x7f) + 1) >> 1) > 0`,
true for the signal numbers 1 to 126. -/
def WIFSIGNALED (status : Int) : Bool :=
  let t := WTERMSIG status + 1
  let signed_char := if 128 ≤ t then t - 256 else t
  decide (0 < signed_char / 2)

/-- The read loop of `execute_command` (lines 384-387): every buffer is
appended as a C string. -/
def read_output (captured_output : Str) : List Str → Str
  | [] => captured_output
  | buffer :: rest => read_output (captured_output ++ c_str buffer) rest

/-- The redirection appended to a captured command (line 375). -/
def REDIRECT : Str := " 2>&1".toList

/-- The function `execute_command` (lines 366-402): the returned value, the
value of `captured_output` and the state of the file system afterwards. -/
def execute_command (host : Host) (fs : FS) (cmd : Str) (capture_output : Bool)
    (captured_output : Str) : Int × Str × FS :=
  if ¬ capture_output then
    let (status, fs1) := host.system (c_str cmd) fs
    (status, captured_output, fs1)
  else
    let full_cmd := cmd ++ REDIRECT
    match host.popen (c_str full_cmd) fs with
    | none => (1, captured_output, fs)
    | some (buffers, status, fs1) =>
      let captured := read_output captured_output buffers
      if host.win32 then (status, captured, fs1)
      else if WIFEXITED status then (WEXITSTATUS status, captured, fs1)
      else if WIFSIGNALED status then (128 + WTERMSIG status, captured, fs1)
      else (status, captured, fs1)

/-- Modelled from the spec: the exit status that a POSIX system reports for a
process whose `main` returns `code`: its low eight bits. -/
def process_exit_status (code : Int) : Int :=
  code % 256

/-! ## The program -/

/-- The lines that successive `std::getline` calls deliver (line 440), `cur`
being the part of the current line read so far. -/
def getlines : Str → Str → List Str
  | [], cur => if cur = [] then [] else [cur]
  | c :: s, cur => if c = Char.ofNat 10 then cur :: getlines s [] else getlines s (cur ++ [c])

/-- The content that `std::ifstream` reads from the file named `name`, `none`
when the stream fails to open. -/
def ifstream_open (fs : FS) (name : Str) : Option Str :=
  match node_at fs (path_of name) with
  | some (Node.file content) => some content
  | _ => none

/-- The state after `std::ofstream` has opened (created or truncated) the
file named `name`, `none` when the stream fails to open. -/
def ofstream_open (fs : FS) (name : Str) : Option FS :=
  let p := path_of name
  if name = [] ∨ name.getLast? = some '/' then none
  else match node_at fs p with
    | some Node.dir => none
    | _ => if is_directory fs p.parent then some (fs_write fs p (Node.file [])) else none

/-- The call `path.parent_path()` as a string: the text up to the last
separator. It is empty exactly when `has_parent_path()` is false. -/
def parent_path (name : Str) : Str :=
  (name.reverse.dropWhile (fun c => c ≠ '/')).reverse

/-- What a run of `main` does: how it ends, the text it writes to standard
output, the commands it passed to `execute_command`, the value
`execute_command` returned (if it was called), the captured output, and the
file system it leaves. -/
structure Run where
  exit : Exit
  stdout : Str := []
  launched : List Str := []
  result : Option Int := none
  captured_output : Str := []
  fs : FS
  deriving DecidableEq, Repr

/-- The environment variable that names the argument file. -/
def ARGS_FILE : Str := "RULES_VERILOG_VERILATOR_ARGS_FILE".toList

/-- The environment variable that forces the captured output to be printed. -/
def DEBUG : Str := "RULES_VERILOG_VERILATOR_DEBUG".toList

/-- The environment variable that names the file to touch after a successful
run. -/
def LINT_OUTPUT : Str := "RULES_VERILOG_VERILATOR_LINT_OUTPUT".toList

/-- The first part of `main` (lines 405-465): the arguments come from the
argument file or from the command line. The status is `1` where `main`
returns 1, and `0` with the parsed arguments otherwise. -/
def main_args (fuel : Nat) (host : Host) (fs : FS) (argv : List Str) : Option (Int × Args) :=
  match host.getenv ARGS_FILE with
  | some args_file_env =>
    match host.runfiles with
    | none => some (1, {})
    | some runfiles =>
      let resolved := runfiles args_file_env
      if resolved = [] then some (1, {})
      else match ifstream_open fs resolved with
        | none => some (1, {})
        | some content =>
          let file_args := (getlines content []).filter (fun line => decide (line ≠ []))
          let file_argv := argv.take 1 ++ file_args.map c_str
          match parse_args fuel host.win32 {} file_argv (some runfiles) with
          | none => none
          | some (status, args) => if status ≠ 0 then some (1, args) else some (0, args)
  | none =>
    match parse_args fuel host.win32 {} argv none with
    | none => none
    | some (status, args) => if status ≠ 0 then some (1, args) else some (0, args)

/-- The command line built by `main` (lines 468-490): `none` when there is
nothing to execute. -/
def build_command (args : Args) : Option Str :=
  let command : List Str :=
    (if args.verilator_binary ≠ [] then [args.verilator_binary] else []) ++ args.verilator_args
  if command = [] then none
  else some (command.foldl (fun cmd part => cmd ++ (part ++ " ".toList)) [])

/-- The text `main` prints after the command has run (lines 496-515). -/
def print_captured (host : Host) (capture_output : Bool) (captured_output : Str)
    (result : Int) : Str :=
  if capture_output ∧ captured_output ≠ [] then
    let should_print := false
    let should_print := if result ≠ 0 then true else should_print
    let should_print := if (host.getenv DEBUG).isSome then true else should_print
    if should_print then captured_output else []
  else []

/-- The touch of the lint output in `main` (lines 521-539): how the step ends
(`returned 0` when `main` goes on, `returned 1` when it returns 1) and the
state it leaves. -/
def touch_lint_output (host : Host) (fs : FS) : Exit × FS :=
  match host.getenv LINT_OUTPUT with
  | none => (Exit.returned 0, fs)
  | some lint_output =>
    let created : Option FS :=
      if parent_path lint_output ≠ [] then create_directories fs (path_of (parent_path lint_output))
      else some fs
    match created with
    | none => (Exit.terminated, fs)
    | some fs1 =>
      match ofstream_open fs1 lint_output with
      | none => (Exit.returned 1, fs1)
      | some fs2 => (Exit.returned 0, fs2)

/-- The loop of `main` over the output mappings (lines 543-550). -/
def copy_outputs (output_srcs output_hdrs : Str) : List (Str × Str) → FS → Exit × FS
  | [], fs => (Exit.returned 0, fs)
  | (output_dir, _) :: rest, fs =>
    match copy_and_filter_outputs fs output_dir output_srcs output_hdrs with
    | (Exit.terminated, fs1) => (Exit.terminated, fs1)
    | (Exit.returned code, fs1) =>
      if code ≠ 0 then (Exit.returned 1, fs1)
      else copy_outputs output_srcs output_hdrs rest fs1

/-- The function `main` (lines 404-553). -/
def main (fuel : Nat) (host : Host) (fs : FS) (argv : List Str) : Option Run :=
  match main_args fuel host fs argv with
  | none => none
  | some (status, args) =>
    if status ≠ 0 then some { exit := Exit.returned 1, fs := fs }
    else match build_command args with
      | none => some { exit := Exit.returned 1, fs := fs }
      | some cmd =>
        match execute_command host fs cmd args.capture_output [] with
        | (result, captured_output, fs1) =>
          let launched := [cmd]
          let stdout := print_captured host args.capture_output captured_output result
          if result ≠ 0 then
            some { exit := Exit.returned result, stdout := stdout, launched := launched,
                   result := some result, captured_output := captured_output, fs := fs1 }
          else match touch_lint_output host fs1 with
            | (Exit.terminated, fs2) =>
              some { exit := Exit.terminated, stdout := stdout, launched := launched,
                     result := some result, captured_output := captured_output, fs := fs2 }
            | (Exit.returned code, fs2) =>
              if code ≠ 0 then
                some { exit := Exit.returned 1, stdout := stdout, launched := launched,
                       result := some result, captured_output := captured_output, fs := fs2 }
              else if args.output_srcs ≠ [] ∨ args.output_hdrs ≠ [] then
                match copy_outputs args.output_srcs args.output_hdrs args.output_mappings fs2 with
                | (ending, fs3) =>
                  some { exit := ending, stdout := stdout, launched := launched,
                         result := some result, captured_output := captured_output, fs := fs3 }
              else
                some { exit := Exit.returned 0, stdout := stdout, launched := launched,
                       result := some result, captured_output := captured_output, fs := fs2 }

/-! ## Auxiliary definitions of the verification -/

/-- The pieces of `s` between the occurrences of `k` that a left-to-right scan
finds, `n` bounding the number of occurrences. -/
def segments (k : Str) : Nat → Str → List Str
  | 0, s => [s]
  | n + 1, s =>
    match find_from k s 0 with
    | none => [s]
    | some p => s.take p :: segments k n (s.drop (p + k.length))

/-- The pieces joined by `v`: `p₀ ++ v ++ p₁ ++ v ++ … ++ pₙ`. -/
def join_with (v : Str) : List Str → Str
  | [] => []
  | [a] => a
  | a :: b :: rest => a ++ v ++ join_with v (b :: rest)

/-- The tokens that reach the pass-through branch of `parse_args`: those after
the first `--`, without the further `--` tokens. -/
def pass_through (tokens : List Str) : List Str :=
  (tokens.dropWhile (fun t => decide (t ≠ DELIMITER))).filter (fun t => decide (t ≠ DELIMITER))

/-- The keys of a map are strictly ascending: its iteration order. -/
def ascending_keys (m : List (Str × Str)) : Prop :=
  m.Pairwise (fun x y => str_lt x.1 y.1 = true)

/-- Runfiles that resolve every path `p` to `/r/p`. -/
def slash_r : Runfiles := fun p => "/r/".toList ++ p

/-- Runfiles that resolve `s` to `o/x` and nothing else. -/
def windows_runfiles : Runfiles := fun p => if p = "s".toList then "o/x".toList else []

/-- A POSIX host without environment variables whose wrapped tool prints
`error` and exits with code 1 (wait status 256). -/
def failing_tool_host : Host where
  win32 := false
  getenv := (fun _ => none)
  runfiles := none
  system := (fun _ fs => (256, fs))
  popen := (fun _ fs => some (["error".toList], 256, fs))

/-- A POSIX host without environment variables whose wrapped tool prints
`done` and exits with code 0. -/
def quiet_tool_host : Host where
  win32 := false
  getenv := (fun _ => none)
  runfiles := none
  system := (fun _ fs => (0, fs))
  popen := (fun _ fs => some (["done".toList], 0, fs))

/-- An output directory `out` that holds `a.cc`, `a.h` and `a.log`. -/
def sample_outputs : FS :=
  [ (path_of "out".toList, Node.dir),
    (path_of "out/a.cc".toList, Node.file "A".toList),
    (path_of "out/a.h".toList, Node.file "B".toList),
    (path_of "out/a.log".toList, Node.file "C".toList) ]

/-- The state that reorganising `sample_outputs` into `S` and `H` leaves. -/
def sorted_outputs : FS :=
  [ (path_of "H/a.h".toList, Node.file "B".toList),
    (path_of "S/a.cc".toList, Node.file "A".toList),
    (path_of "H".toList, Node.dir),
    (path_of "S".toList, Node.dir),
    (path_of "out".toList, Node.dir) ]

/-- An output directory `out` that holds the header `a.h` only. -/
def header_outputs : FS :=
  [ (path_of "out".toList, Node.dir),
    (path_of "out/a.h".toList, Node.file "B".toList) ]

/-- The state that reorganising `header_outputs` into `S` and `H` leaves. -/
def sorted_header_outputs : FS :=
  [ (path_of "H/a.h".toList, Node.file "B".toList),
    (path_of "H".toList, Node.dir),
    (path_of "S".toList, Node.dir),
    (path_of "out".toList, Node.dir) ]

/-- A POSIX host without environment variables whose wrapped tool writes the
header `out/a.h` and exits with code 0. -/
def header_tool_host : Host where
  win32 := false
  getenv := (fun _ => none)
  runfiles := none
  system := (fun _ _ => (0, header_outputs))
  popen := (fun _ _ => some ([], 0, header_outputs))

/-- A POSIX host on which `RULES_VERILOG_VERILATOR_LINT_OUTPUT` names
`lint_output` and whose wrapped tool adds the nodes `produced` to the file
system and exits with code 0. -/
def lint_host (lint_output : Str) (produced : FS) : Host where
  win32 := false
  getenv := (fun name => if name = LINT_OUTPUT then some lint_output else none)
  runfiles := none
  system := (fun _ fs => (0, produced ++ fs))
  popen := (fun _ fs => some ([], 0, produced ++ fs))

/-- An output directory `out` that holds the source `a.cc` only. -/
def source_outputs : FS :=
  [ (path_of "out".toList, Node.dir),
    (path_of "out/a.cc".toList, Node.file "A".toList) ]

/-! ## Verification -/

/-! ### Searching and replacing -/

theorem find_from_shift (k : Str) (s : Str) (pos : Nat) :
    find_from k s pos = (find_from k s 0).map (fun p => p + pos) := by
  induction s generalizing pos with
  | nil => by_cases hk : k = [] <;> simp [find_from, hk]
  | cons c s ih =>
    by_cases hp : k.isPrefixOf (c :: s) = true
    · simp [find_from, hp]
    · simp only [find_from, hp]
      rw [ih (pos + 1), ih (0 + 1)]
      cases find_from k s 0 <;> simp [Nat.add_comm, Nat.add_left_comm]

theorem find_from_some (k : Str) (s : Str) (p : Nat) (h : find_from k s 0 = some p) :
    k <+: s.drop p ∧ (∀ j, j < p → ¬ k <+: s.drop j) ∧ p ≤ s.length := by
  induction s generalizing p with
  | nil =>
    by_cases hk : k = []
    · simp [find_from, hk] at h
      subst h; subst hk
      simp
    · simp [find_from, hk] at h
  | cons c s ih =>
    by_cases hp : k.isPrefixOf (c :: s) = true
    · simp [find_from, hp] at h
      subst h
      refine ⟨?_, by simp, by simp⟩
      simpa using List.isPrefixOf_iff_prefix.mp hp
    · simp only [find_from, hp] at h
      rw [find_from_shift] at h
      cases hq : find_from k s 0 with
      | none => simp [hq] at h
      | some q =>
        simp [hq] at h
        subst h
        obtain ⟨h1, h2, h3⟩ := ih q hq
        refine ⟨by simpa using h1, ?_, by simpa using h3⟩
        intro j hj
        cases j with
        | zero =>
          intro hpre
          exact hp (List.isPrefixOf_iff_prefix.mpr (by simpa using hpre))
        | succ j => simpa using h2 j (by omega)

theorem find_from_none (k : Str) (s : Str) (pos : Nat) (h : find_from k s pos = none) :
    ¬ k <:+: s := by
  induction s generalizing pos with
  | nil =>
    by_cases hk : k = []
    · simp [find_from, hk] at h
    · simpa using hk
  | cons c s ih =>
    by_cases hp : k.isPrefixOf (c :: s) = true
    · simp [find_from, hp] at h
    · simp only [find_from, hp] at h
      rw [List.infix_cons_iff]
      rintro (h1 | h1)
      · exact hp (List.isPrefixOf_iff_prefix.mpr h1)
      · exact ih _ h h1

theorem find_from_absent (k : Str) (s : Str) (pos : Nat) (h : ¬ k <:+: s) :
    find_from k s pos = none := by
  cases hf : find_from k s pos with
  | none => rfl
  | some p =>
    exfalso
    rw [find_from_shift] at hf
    cases hq : find_from k s 0 with
    | none => simp [hq] at hf
    | some q =>
      obtain ⟨h1, _, _⟩ := find_from_some k s q hq
      exact h (h1.isInfix.trans (List.drop_suffix q s).isInfix)

theorem segments_ne_nil (k : Str) (n : Nat) (s : Str) : segments k n s ≠ [] := by
  cases n with
  | zero => simp [segments]
  | succ n =>
    simp only [segments]
    cases find_from k s 0 <;> simp

theorem join_with_cons (v a : Str) (l : List Str) (h : l ≠ []) :
    join_with v (a :: l) = a ++ v ++ join_with v l := by
  cases l with
  | nil => exact absurd rfl h
  | cons b rest => rfl

theorem find_some_split (k s : Str) (p : Nat) (h : find_from k s 0 = some p) :
    s = s.take p ++ k ++ s.drop (p + k.length) ∧ p + k.length ≤ s.length := by
  obtain ⟨⟨t, ht⟩, _, hle⟩ := find_from_some k s p h
  have h1 : s = s.take p ++ s.drop p := (List.take_append_drop p s).symm
  have h2 : s.drop (p + k.length) = t := by
    rw [← List.drop_drop, ← ht]
    simp
  have h3 : (s.drop p).length = k.length + t.length := by rw [← ht]; simp
  constructor
  · rw [h2, List.append_assoc, ht]; exact h1
  · simp at h3; omega

theorem segments_join (k : Str) (n : Nat) (s : Str) : join_with k (segments k n s) = s := by
  induction n generalizing s with
  | zero => simp [segments, join_with]
  | succ n ih =>
    simp only [segments]
    cases h : find_from k s 0 with
    | none => simp [join_with]
    | some p =>
      simp only []
      rw [join_with_cons _ _ _ (segments_ne_nil _ _ _), ih]
      exact (find_some_split k s p h).1.symm

theorem segments_free (k : Str) (hk : k ≠ []) (n : Nat) (s : Str) (hn : s.length ≤ n) :
    ∀ piece ∈ segments k n s, ¬ k <:+: piece := by
  induction n generalizing s with
  | zero =>
    have : s = [] := List.length_eq_zero.mp (by omega)
    subst this
    simpa [segments] using hk
  | succ n ih =>
    simp only [segments]
    cases h : find_from k s 0 with
    | none =>
      simpa using find_from_none k s 0 h
    | some p =>
      obtain ⟨h1, h2, _⟩ := find_from_some k s p h
      obtain ⟨_, h3⟩ := find_some_split k s p h
      have hkl : 0 < k.length := List.length_pos.mpr hk
      intro piece hpiece
      rcases List.mem_cons.mp hpiece with rfl | hmem
      · rintro ⟨a, b, hab⟩
        have hlen := congrArg List.length hab
        simp at hlen
        have hj : a.length < p := by omega
        apply h2 a.length hj
        refine ⟨b ++ s.drop p, ?_⟩
        have : s = a ++ k ++ b ++ s.drop p := by
          rw [hab]; exact (List.take_append_drop p s).symm
        conv_rhs => rw [this]
        simp
      · exact ih _ (by simp; omega) piece hmem

/-- With a non-empty key and enough fuel, the replacement loop started at the
end of `done` returns `done` followed by the pieces of the rest joined by the
resolved value. -/
theorem replace_loop_spec (k v : Str) (hk : k ≠ []) (n : Nat) :
    ∀ (fuel : Nat) (done s : Str), s.length ≤ n → n < fuel →
      replace_loop fuel k v (done ++ s) done.length =
        some (done ++ join_with v (segments k n s)) := by
  induction n with
  | zero =>
    intro fuel done s hs hf
    have : s = [] := List.length_eq_zero.mp (by omega)
    subst this
    obtain ⟨f, rfl⟩ : ∃ f, fuel = f + 1 := ⟨fuel - 1, by omega⟩
    have hnone : find_from k [] done.length = none := by simp [find_from, hk]
    simp [replace_loop, find, segments, join_with, hnone]
  | succ n ih =>
    intro fuel done s hs hf
    obtain ⟨f, rfl⟩ : ∃ f, fuel = f + 1 := ⟨fuel - 1, by omega⟩
    have hfind : find (done ++ s) k done.length =
        (find_from k s 0).map (fun p => p + done.length) := by
      simp [find]
      exact find_from_shift k s done.length
    simp only [replace_loop, hfind, segments]
    cases h : find_from k s 0 with
    | none => simp [join_with]
    | some p =>
      obtain ⟨h3, h4⟩ := find_some_split k s p h
      have hkl : 0 < k.length := List.length_pos.mpr hk
      simp only [Option.map_some']
      rw [join_with_cons _ _ _ (segments_ne_nil _ _ _)]
      have hrep : replace (done ++ s) (p + done.length) k.length v
          = (done ++ s.take p ++ v) ++ s.drop (p + k.length) := by
        simp only [replace]
        have e1 : List.take (p + done.length) (done ++ s) = done ++ s.take p := by
          rw [Nat.add_comm]; simp [List.take_append]
        have e2 : List.drop (p + done.length + k.length) (done ++ s) =
            s.drop (p + k.length) := by
          have : p + done.length + k.length = done.length + (p + k.length) := by omega
          rw [this]; simp [List.drop_append]
        rw [e1, e2]
      have hpos : p + done.length + v.length = (done ++ s.take p ++ v).length := by
        simp; omega
      rw [hrep, hpos,
        ih f (done ++ s.take p ++ v) (s.drop (p + k.length)) (by simp; omega) (by omega)]
      simp

/-- The replacement loop of a mapping from the start of an argument. -/
theorem replace_loop_start (k v : Str) (hk : k ≠ []) (fuel : Nat) (a : Str)
    (hf : a.length < fuel) :
    replace_loop fuel k v a 0 = some (join_with v (segments k a.length a)) := by
  simpa using replace_loop_spec k v hk a.length fuel [] a (Nat.le_refl _) hf

/-! ### Argument parsing -/

theorem starts_with_iff (str pre : Str) : starts_with str pre = true ↔ pre <+: str := by
  simp only [starts_with, Bool.and_eq_true, decide_eq_true_eq, beq_iff_eq]
  constructor
  · rintro ⟨_, h⟩
    exact List.prefix_iff_eq_take.mpr h.symm
  · intro h
    exact ⟨h.length_le, (List.prefix_iff_eq_take.mp h).symm⟩

/-- A token before the delimiter that is no wrapper flag ends the loop of
`parse_args` with status 1. -/
theorem parse_loop_unknown (fuel : Nat) (win32 : Bool) (runfiles : Option Runfiles)
    (t : Str) (post : List Str)
    (ht : t ≠ DELIMITER)
    (h1 : ¬ FLAG_VERILATOR <+: t) (h2 : ¬ FLAG_SRC <+: t)
    (h3 : ¬ FLAG_OUTPUT <+: t) (h4 : ¬ FLAG_OUTPUT_SRCS <+: t)
    (h5 : ¬ FLAG_OUTPUT_HDRS <+: t) (h6 : t ≠ FLAG_CAPTURE_OUTPUT) :
    ∀ (pre : List Str) (args : Args), DELIMITER ∉ pre →
      ∃ args', parse_loop fuel win32 runfiles (pre ++ t :: post) args false = some (1, args') := by
  intro pre
  induction pre with
  | nil =>
    intro args _
    refine ⟨args, ?_⟩
    rw [← starts_with_iff] at h1 h2 h3 h4 h5
    simp [parse_loop, ht, h1, h2, h3, h4, h5, h6]
  | cons a pre ih =>
    intro args hpre
    have ha : a ≠ DELIMITER := fun h => hpre (by simp [h])
    have hpre' : DELIMITER ∉ pre := fun h => hpre (by simp [h])
    rw [List.cons_append, parse_loop, if_neg ha, if_neg Bool.false_ne_true]
    split_ifs
    all_goals first
      | exact ih _ hpre'
      | exact ⟨_, rfl⟩

/-- C1: a token before the first `--` that is none of the wrapper flags makes
`parse_args` return 1 and leave `out_args` alone, and `main` then returns 1
without calling `execute_command`, whether the tokens come from the command
line or from the argument file. -/
theorem unknown_flag_fails (fuel : Nat) (win32 : Bool) (out_args : Args)
    (runfiles : Option Runfiles) (argv0 : Str) (pre : List Str) (t : Str) (post : List Str)
    (hpre : DELIMITER ∉ pre) (ht : t ≠ DELIMITER)
    (h1 : ¬ FLAG_VERILATOR <+: t) (h2 : ¬ FLAG_SRC <+: t)
    (h3 : ¬ FLAG_OUTPUT <+: t) (h4 : ¬ FLAG_OUTPUT_SRCS <+: t)
    (h5 : ¬ FLAG_OUTPUT_HDRS <+: t) (h6 : t ≠ FLAG_CAPTURE_OUTPUT) :
    parse_args fuel win32 out_args (argv0 :: (pre ++ t :: post)) runfiles = some (1, out_args) ∧
    (∀ (host : Host) (fs : FS), host.getenv ARGS_FILE = none →
      main fuel host fs (argv0 :: (pre ++ t :: post)) =
        some { exit := Exit.returned 1, stdout := [], launched := [], result := none,
               captured_output := [], fs := fs }) ∧
    (∀ (host : Host) (fs : FS) (rest : List Str) (name content : Str) (rlocation : Runfiles),
      host.getenv ARGS_FILE = some name → host.runfiles = some rlocation →
      rlocation name ≠ [] → ifstream_open fs (rlocation name) = some content →
      ((getlines content []).filter (fun line => decide (line ≠ []))).map c_str =
        pre ++ t :: post →
      main fuel host fs (argv0 :: rest) =
        some { exit := Exit.returned 1, stdout := [], launched := [], result := none,
               captured_output := [], fs := fs }) := by
  have key : ∀ (w : Bool) (o : Args) (rf : Option Runfiles),
      parse_args fuel w o (argv0 :: (pre ++ t :: post)) rf = some (1, o) := by
    intro w o rf
    obtain ⟨args', h⟩ := parse_loop_unknown fuel w rf t post ht h1 h2 h3 h4 h5 h6 pre {} hpre
    unfold parse_args
    rw [List.drop_one, List.tail_cons, h]
    simp
  refine ⟨key _ _ _, ?_, ?_⟩
  · intro host fs henv
    simp [main, main_args, henv, key]
  · intro host fs rest name content rlocation henv hrf hne hopen hlines
    simp only [main, main_args, henv, hrf, hne, if_false, hopen, List.take_succ_cons,
      List.take_zero, hlines]
    rw [show [argv0] ++ (pre ++ t :: post) = argv0 :: (pre ++ t :: post) from rfl, key]
    simp

theorem unknown_flag_fails_witness :
    parse_args 0 false {} ["w".toList, "--verilator=v".toList, "--bogus".toList, DELIMITER,
      "x".toList] none = some (1, {}) ∧
    main 0 quiet_tool_host [] ["w".toList, "--verilator=v".toList, "--bogus".toList, DELIMITER,
      "x".toList] =
      some { exit := Exit.returned 1, stdout := [], launched := [], result := none,
             captured_output := [], fs := [] } :=
  ⟨(unknown_flag_fails 0 false {} none "w".toList ["--verilator=v".toList] "--bogus".toList
      [DELIMITER, "x".toList] (by decide) (by decide) (by decide) (by decide) (by decide)
      (by decide) (by decide) (by decide)).1,
   (unknown_flag_fails 0 false {} none "w".toList ["--verilator=v".toList] "--bogus".toList
      [DELIMITER, "x".toList] (by decide) (by decide) (by decide) (by decide) (by decide)
      (by decide) (by decide) (by decide)).2.1 quiet_tool_host [] rfl⟩

/-- C2 (code defect): a second `--` among the pass-through tokens is dropped:
of the three tokens `a`, `--`, `b` after the delimiter only two are stored. -/
theorem later_delimiter_dropped :
    parse_args 1 false {} ["w".toList, DELIMITER, "a".toList, DELIMITER, "b".toList] none =
      some (0, { verilator_args := ["a".toList, "b".toList] }) := by
  decide

/-! ### Substitution -/

/-- C3 (counterexample): with the mapping recorded for `--src=a` the
substituted form of the pass-through argument `a` still contains the key `a`,
both when the resolved value is the key itself (no runfiles) and when the
runfiles resolve it to `/r/a`. -/
theorem key_remains_after_substitution :
    parse_args 2 false {} ["w".toList, "--src=a".toList, DELIMITER, "a".toList] none =
      some (0, { source_mappings := [("a".toList, "a".toList)],
                 verilator_args := ["a".toList] }) ∧
    "a".toList <:+: "a".toList ∧
    parse_args 2 false {} ["w".toList, "--src=a".toList, DELIMITER, "a".toList]
      (some slash_r) =
      some (0, { source_mappings := [("a".toList, "/r/a".toList)],
                 verilator_args := ["/r/a".toList] }) ∧
    "a".toList <:+: "/r/a".toList := by
  refine ⟨by decide, by decide, by decide, by decide⟩

/-- C3 (amended): for a non-empty key `k` the replacement loop of a mapping
`k ↦ v` returns, given more fuel than the argument is long, the argument with
every occurrence of `k` that the left-to-right scan finds replaced by `v`: the
argument is `p₀ k p₁ k … pₙ`, the result `p₀ v p₁ v … pₙ`, and no piece `pᵢ`
contains `k`. -/
theorem replace_loop_replaces_found_occurrences (k v a : Str) (fuel : Nat) (hk : k ≠ [])
    (hf : a.length < fuel) :
    ∃ pieces : List Str, a = join_with k pieces ∧
      replace_loop fuel k v a 0 = some (join_with v pieces) ∧
      ∀ piece ∈ pieces, ¬ k <:+: piece :=
  ⟨segments k a.length a, (segments_join k a.length a).symm,
    replace_loop_start k v hk fuel a hf, segments_free k hk a.length a (Nat.le_refl _)⟩

theorem replace_loop_replaces_found_occurrences_witness :
    ∃ pieces : List Str, "xaya".toList = join_with "a".toList pieces ∧
      replace_loop 5 "a".toList "/r/a".toList "xaya".toList 0 =
        some (join_with "/r/a".toList pieces) ∧
      ∀ piece ∈ pieces, ¬ "a".toList <:+: piece :=
  replace_loop_replaces_found_occurrences "a".toList "/r/a".toList "xaya".toList 5
    (by decide) (by decide)

theorem replace_loop_fixed (k v a : Str) (fuel : Nat) (hk : k ≠ [])
    (h : v = k ∨ ¬ k <:+: a) (hf : a.length < fuel) :
    replace_loop fuel k v a 0 = some a := by
  rcases h with h | h
  · subst h
    rw [replace_loop_start v v hk fuel a hf, segments_join]
  · obtain ⟨f, rfl⟩ : ∃ f, fuel = f + 1 := ⟨fuel - 1, by omega⟩
    simp [replace_loop, find, find_from_absent k a 0 h]

theorem replace_mappings_fixed (fuel : Nat) (a : Str) (hf : a.length < fuel) :
    ∀ (m : List (Str × Str)),
      (∀ kv ∈ m, kv.1 ≠ [] ∧ (kv.2 = kv.1 ∨ ¬ kv.1 <:+: a)) →
      replace_mappings fuel m a = some a := by
  intro m
  induction m with
  | nil => intro _; rfl
  | cons kv rest ih =>
    intro h
    obtain ⟨k, v⟩ := kv
    have hkv := h (k, v) (by simp)
    simp only [replace_mappings, replace_loop_fixed k v a fuel hkv.1 hkv.2 hf]
    exact ih (fun kv hmem => h kv (List.mem_cons_of_mem _ hmem))

/-- C4 (counterexample): with the mapping `a ↦ /r/a` the pass turns `a` into
`/r/a` and `/r/a` into `/r//r/a`: applying it twice differs from applying it
once. -/
theorem substitution_twice_differs :
    parse_args 3 false {} ["w".toList, "--src=a".toList, DELIMITER, "a".toList,
        "/r/a".toList] (some slash_r) =
      some (0, { source_mappings := [("a".toList, "/r/a".toList)],
                 verilator_args := ["/r/a".toList, "/r//r/a".toList] }) ∧
    substitute 3 [("a".toList, "/r/a".toList)] [] "a".toList = some "/r/a".toList ∧
    substitute 3 [("a".toList, "/r/a".toList)] [] "/r/a".toList = some "/r//r/a".toList ∧
    "/r//r/a".toList ≠ "/r/a".toList := by
  refine ⟨by decide, by decide, by decide, by decide⟩

/-- C4 (amended): applying the pass to an already substituted argument
`a₁ = subst a` gives `a₁` again, `subst (subst a) = subst a`, whenever every
mapping has a non-empty key and either maps its key to itself or has a key
that does not occur in `a₁`. -/
theorem substitution_idempotent_without_reintroduced_key (fuel fuel' : Nat)
    (source_mappings output_mappings : List (Str × Str)) (a a₁ : Str)
    (h : substitute fuel source_mappings output_mappings a = some a₁)
    (hm : ∀ kv ∈ source_mappings ++ output_mappings,
      kv.1 ≠ [] ∧ (kv.2 = kv.1 ∨ ¬ kv.1 <:+: a₁))
    (hf : a₁.length < fuel') :
    substitute fuel' source_mappings output_mappings a₁ =
      substitute fuel source_mappings output_mappings a := by
  rw [h]
  unfold substitute
  rw [replace_mappings_fixed fuel' a₁ hf source_mappings
    (fun kv hmem => hm kv (List.mem_append_left _ hmem))]
  exact replace_mappings_fixed fuel' a₁ hf output_mappings
    (fun kv hmem => hm kv (List.mem_append_right _ hmem))

theorem substitution_idempotent_without_reintroduced_key_witness :
    substitute 4 [("a".toList, "b".toList)] [("c".toList, "c".toList)] "ac".toList =
      some "bc".toList ∧
    substitute 4 [("a".toList, "b".toList)] [("c".toList, "c".toList)] "bc".toList =
      substitute 4 [("a".toList, "b".toList)] [("c".toList, "c".toList)] "ac".toList :=
  ⟨by decide,
   substitution_idempotent_without_reintroduced_key 4 4 [("a".toList, "b".toList)]
     [("c".toList, "c".toList)] "ac".toList "bc".toList (by decide) (by decide) (by decide)⟩

theorem substitute_some (fuel : Nat) (src out : List (Str × Str)) (a stored : Str) :
    substitute fuel src out a = some stored ↔
      ∃ a', replace_mappings fuel src a = some a' ∧ replace_mappings fuel out a' = some stored := by
  unfold substitute
  cases replace_mappings fuel src a <;> simp

/-- After the delimiter the mappings no longer change, and every token other
than `--` appends its substituted form. -/
theorem parse_loop_after (fuel : Nat) (win32 : Bool) (runfiles : Option Runfiles) :
    ∀ (tokens : List Str) (args0 args : Args),
      parse_loop fuel win32 runfiles tokens args0 true = some (0, args) →
      args.source_mappings = args0.source_mappings ∧
      args.output_mappings = args0.output_mappings ∧
      ∃ new, args.verilator_args = args0.verilator_args ++ new ∧
        List.Forall₂
          (fun a stored =>
            substitute fuel args0.source_mappings args0.output_mappings a = some stored)
          (tokens.filter (fun t => decide (t ≠ DELIMITER))) new := by
  intro tokens
  induction tokens with
  | nil =>
    intro args0 args h
    simp only [parse_loop, Option.some.injEq, Prod.mk.injEq, true_and] at h
    subst h
    exact ⟨rfl, rfl, [], by simp, by simp⟩
  | cons a rest ih =>
    intro args0 args h
    rw [parse_loop] at h
    by_cases ha : a = DELIMITER
    · rw [if_pos ha] at h
      obtain ⟨h1, h2, new, h3, h4⟩ := ih args0 args h
      exact ⟨h1, h2, new, h3, by simpa [ha] using h4⟩
    · rw [if_neg ha, if_pos rfl] at h
      cases hs : substitute fuel args0.source_mappings args0.output_mappings a with
      | none => simp [hs] at h
      | some stored =>
        simp only [hs] at h
        obtain ⟨h1, h2, new, h3, h4⟩ := ih _ args h
        refine ⟨h1, h2, stored :: new, by simpa using h3, ?_⟩
        simp only [ne_eq, ha, not_false_eq_true, decide_True, List.filter_cons_of_pos]
        exact List.Forall₂.cons hs h4

/-- Before the delimiter the stored arguments are those of the tokens that
follow it, substituted with the final mappings. -/
theorem parse_loop_before (fuel : Nat) (win32 : Bool) (runfiles : Option Runfiles) :
    ∀ (tokens : List Str) (args0 args : Args),
      parse_loop fuel win32 runfiles tokens args0 false = some (0, args) →
      ∃ new, args.verilator_args = args0.verilator_args ++ new ∧
        List.Forall₂
          (fun a stored =>
            substitute fuel args.source_mappings args.output_mappings a = some stored)
          (pass_through tokens) new := by
  intro tokens
  induction tokens with
  | nil =>
    intro args0 args h
    simp only [parse_loop, Option.some.injEq, Prod.mk.injEq, true_and] at h
    subst h
    exact ⟨[], by simp, by simp [pass_through]⟩
  | cons a rest ih =>
    intro args0 args h
    rw [parse_loop] at h
    by_cases ha : a = DELIMITER
    · rw [if_pos ha] at h
      obtain ⟨h1, h2, new, h3, h4⟩ := parse_loop_after fuel win32 runfiles rest args0 args h
      refine ⟨new, h3, ?_⟩
      rw [h1, h2]
      simpa [pass_through, ha] using h4
    · rw [if_neg ha, if_neg Bool.false_ne_true] at h
      have hpt : pass_through (a :: rest) = pass_through rest := by
        simp [pass_through, ha]
      rw [hpt]
      split_ifs at h
      all_goals first
        | exact (by simpa using ih _ args h)
        | (simp at h)


/-! ### Order of the maps and termination -/

theorem str_lt_irrefl : ∀ a : Str, str_lt a a = false := by
  intro a
  induction a with
  | nil => rfl
  | cons c s ih => simp [str_lt, ih]

theorem char_eq_of_not_lt (a b : Char) (h1 : ¬ a.toNat < b.toNat) (h2 : ¬ b.toNat < a.toNat) :
    a = b := by
  apply Char.ext
  apply UInt32.ext
  have : a.toNat = b.toNat := by omega
  simpa [Char.toNat] using this

theorem str_lt_trans : ∀ a b c : Str, str_lt a b = true → str_lt b c = true →
    str_lt a c = true := by
  intro a
  induction a with
  | nil =>
    intro b c h1 h2
    cases b with
    | nil => simp [str_lt] at h1
    | cons y ys =>
      cases c with
      | nil => simp [str_lt] at h2
      | cons z zs => simp [str_lt]
  | cons x xs ih =>
    intro b c h1 h2
    cases b with
    | nil => simp [str_lt] at h1
    | cons y ys =>
      cases c with
      | nil => simp [str_lt] at h2
      | cons z zs =>
        simp only [str_lt] at h1 h2 ⊢
        by_cases hxy : x.toNat < y.toNat
        · by_cases hyz : y.toNat < z.toNat
          · have : x.toNat < z.toNat := by omega
            simp [this]
          · simp only [hyz, if_false] at h2
            split_ifs at h2 with e
            subst e
            simp [hxy]
        · simp only [hxy, if_false] at h1
          split_ifs at h1 with e
          subst e
          by_cases hyz : x.toNat < z.toNat
          · simp [hyz]
          · simp only [hyz, if_false] at h2 ⊢
            split_ifs at h2 with e2
            subst e2
            simpa using ih ys zs h1 h2

theorem str_lt_total : ∀ a b : Str, str_lt a b = false → a ≠ b → str_lt b a = true := by
  intro a
  induction a with
  | nil =>
    intro b h1 h2
    cases b with
    | nil => exact absurd rfl h2
    | cons y ys => simp [str_lt] at h1
  | cons x xs ih =>
    intro b h1 h2
    cases b with
    | nil => simp [str_lt]
    | cons y ys =>
      simp only [str_lt] at h1 ⊢
      by_cases hxy : x.toNat < y.toNat
      · simp [hxy] at h1
      · simp only [hxy, if_false] at h1
        by_cases hyx : y.toNat < x.toNat
        · simp [hyx]
        · have e : x = y := char_eq_of_not_lt x y hxy hyx
          subst e
          simp only [if_true] at h1
          simp only [Nat.lt_irrefl, if_false, if_true]
          exact ih ys h1 (fun e => h2 (by rw [e]))

theorem mem_map_assign (k v : Str) : ∀ (m : List (Str × Str)) (kv : Str × Str),
    kv ∈ map_assign m k v → kv = (k, v) ∨ kv ∈ m := by
  intro m
  induction m with
  | nil => intro kv h; simp [map_assign] at h; exact Or.inl h
  | cons e rest ih =>
    intro kv h
    obtain ⟨k', v'⟩ := e
    simp only [map_assign] at h
    split_ifs at h
    · rcases List.mem_cons.mp h with rfl | h'
      · exact Or.inl rfl
      · exact Or.inr h'
    · rcases List.mem_cons.mp h with rfl | h'
      · exact Or.inl rfl
      · exact Or.inr (List.mem_cons_of_mem _ h')
    · rcases List.mem_cons.mp h with rfl | h'
      · exact Or.inr (List.mem_cons_self _ _)
      · rcases ih kv h' with h'' | h''
        · exact Or.inl h''
        · exact Or.inr (List.mem_cons_of_mem _ h'')

theorem map_assign_ascending (k v : Str) : ∀ (m : List (Str × Str)),
    ascending_keys m → ascending_keys (map_assign m k v) := by
  intro m
  induction m with
  | nil => intro _; simp [map_assign, ascending_keys]
  | cons e rest ih =>
    intro h
    obtain ⟨k', v'⟩ := e
    unfold ascending_keys at h ih ⊢
    obtain ⟨h1, h2⟩ := List.pairwise_cons.mp h
    simp only [map_assign]
    split_ifs with c1 c2
    · refine List.pairwise_cons.mpr ⟨?_, h⟩
      intro kv hkv
      rcases List.mem_cons.mp hkv with rfl | hmem
      · exact c1
      · exact str_lt_trans _ _ _ c1 (h1 kv hmem)
    · subst c2
      exact List.pairwise_cons.mpr ⟨h1, h2⟩
    · refine List.pairwise_cons.mpr ⟨?_, ih h2⟩
      intro kv hkv
      rcases mem_map_assign k v rest kv hkv with rfl | hmem
      · exact str_lt_total k k' (by simpa using c1) c2
      · exact h1 kv hmem

theorem parse_loop_ascending (fuel : Nat) (win32 : Bool) (runfiles : Option Runfiles) :
    ∀ (tokens : List Str) (args0 : Args) (after : Bool) (res : Int × Args),
      parse_loop fuel win32 runfiles tokens args0 after = some res →
      ascending_keys args0.source_mappings → ascending_keys args0.output_mappings →
      ascending_keys res.2.source_mappings ∧ ascending_keys res.2.output_mappings := by
  intro tokens
  induction tokens with
  | nil =>
    intro args0 after res h hs ho
    simp only [parse_loop, Option.some.injEq] at h
    subst h
    exact ⟨hs, ho⟩
  | cons a rest ih =>
    intro args0 after res h hs ho
    rw [parse_loop] at h
    split_ifs at h
    · exact ih _ _ _ h hs ho
    · split at h
      · simp at h
      · exact ih _ _ _ h hs ho
    · exact ih _ _ _ h hs ho
    · exact ih _ _ _ h (map_assign_ascending _ _ _ hs) ho
    · exact ih _ _ _ h hs (map_assign_ascending _ _ _ ho)
    · exact ih _ _ _ h hs ho
    · exact ih _ _ _ h hs ho
    · exact ih _ _ _ h hs ho
    · simp only [Option.some.injEq] at h
      subst h
      exact ⟨hs, ho⟩

/-- With non-empty keys the loop over the entries of a map ends, with the same
result for every sufficient fuel. -/
theorem replace_mappings_total :
    ∀ (m : List (Str × Str)), (∀ kv ∈ m, kv.1 ≠ []) → ∀ s : Str,
      ∃ (fuel0 : Nat) (r : Str), ∀ fuel, fuel0 ≤ fuel → replace_mappings fuel m s = some r := by
  intro m
  induction m with
  | nil => intro _ s; exact ⟨0, s, fun _ _ => rfl⟩
  | cons kv rest ih =>
    intro hm s
    obtain ⟨k, v⟩ := kv
    have hk : k ≠ [] := hm (k, v) (by simp)
    obtain ⟨f1, r, hr⟩ := ih (fun kv hmem => hm kv (List.mem_cons_of_mem _ hmem))
      (join_with v (segments k s.length s))
    refine ⟨max (s.length + 1) f1, r, fun fuel hf => ?_⟩
    simp only [replace_mappings, replace_loop_start k v hk fuel s (by omega)]
    exact hr fuel (by omega)

theorem substitute_total (source_mappings output_mappings : List (Str × Str))
    (hs : ∀ kv ∈ source_mappings, kv.1 ≠ []) (ho : ∀ kv ∈ output_mappings, kv.1 ≠ [])
    (a : Str) :
    ∃ (fuel0 : Nat) (r : Str), ∀ fuel, fuel0 ≤ fuel →
      substitute fuel source_mappings output_mappings a = some r := by
  obtain ⟨f1, r1, h1⟩ := replace_mappings_total source_mappings hs a
  obtain ⟨f2, r2, h2⟩ := replace_mappings_total output_mappings ho r1
  refine ⟨max f1 f2, r2, fun fuel hf => ?_⟩
  simp only [substitute, h1 fuel (by omega)]
  exact h2 fuel (by omega)

theorem map_assign_keys (k v : Str) (hk : k ≠ []) :
    ∀ (m : List (Str × Str)), (∀ kv ∈ m, kv.1 ≠ []) → ∀ kv ∈ map_assign m k v, kv.1 ≠ [] := by
  intro m
  induction m with
  | nil => intro _ kv hkv; simp [map_assign] at hkv; rw [hkv]; exact hk
  | cons e rest ih =>
    intro hm kv hkv
    obtain ⟨k', v'⟩ := e
    simp only [map_assign] at hkv
    split_ifs at hkv
    · rcases List.mem_cons.mp hkv with rfl | h
      · exact hk
      · exact hm kv h
    · rcases List.mem_cons.mp hkv with rfl | h
      · exact hk
      · exact hm kv (List.mem_cons_of_mem _ h)
    · rcases List.mem_cons.mp hkv with rfl | h
      · exact hm _ (by simp)
      · exact ih (fun kv hmem => hm kv (List.mem_cons_of_mem _ hmem)) kv h

theorem drop_flag_ne_nil (t flag : Str) (h : starts_with t flag = true) (hne : t ≠ flag) :
    t.drop flag.length ≠ [] := by
  obtain ⟨rest, rfl⟩ := (starts_with_iff _ _).mp h
  intro hd
  apply hne
  simp at hd
  simp [hd]

theorem parse_loop_after_total (win32 : Bool) (runfiles : Option Runfiles) :
    ∀ (tokens : List Str) (args : Args),
      (∀ kv ∈ args.source_mappings, kv.1 ≠ []) → (∀ kv ∈ args.output_mappings, kv.1 ≠ []) →
      ∃ (fuel0 : Nat) (res : Int × Args), ∀ fuel, fuel0 ≤ fuel →
        parse_loop fuel win32 runfiles tokens args true = some res := by
  intro tokens
  induction tokens with
  | nil => intro args _ _; exact ⟨0, (0, args), fun _ _ => rfl⟩
  | cons a rest ih =>
    intro args hs ho
    by_cases ha : a = DELIMITER
    · obtain ⟨f0, res, h⟩ := ih args hs ho
      refine ⟨f0, res, fun fuel hf => ?_⟩
      rw [parse_loop, if_pos ha]
      exact h fuel hf
    · obtain ⟨f1, r, hr⟩ := substitute_total _ _ hs ho a
      obtain ⟨f2, res, h⟩ := ih { args with verilator_args := args.verilator_args ++ [r] } hs ho
      refine ⟨max f1 f2, res, fun fuel hf => ?_⟩
      rw [parse_loop, if_neg ha, if_pos rfl, hr fuel (by omega)]
      exact h fuel (by omega)

theorem parse_loop_before_total (win32 : Bool) (runfiles : Option Runfiles) :
    ∀ (tokens : List Str) (args : Args),
      (∀ kv ∈ args.source_mappings, kv.1 ≠ []) → (∀ kv ∈ args.output_mappings, kv.1 ≠ []) →
      (∀ t ∈ tokens.takeWhile (fun t => decide (t ≠ DELIMITER)),
        t ≠ FLAG_SRC ∧ t ≠ FLAG_OUTPUT) →
      ∃ (fuel0 : Nat) (res : Int × Args), ∀ fuel, fuel0 ≤ fuel →
        parse_loop fuel win32 runfiles tokens args false = some res := by
  intro tokens
  induction tokens with
  | nil => intro args _ _ _; exact ⟨0, (0, args), fun _ _ => rfl⟩
  | cons a rest ih =>
    intro args hs ho ht
    by_cases ha : a = DELIMITER
    · obtain ⟨f0, res, h⟩ := parse_loop_after_total win32 runfiles rest args hs ho
      refine ⟨f0, res, fun fuel hf => ?_⟩
      rw [parse_loop, if_pos ha]
      exact h fuel hf
    · have htw : (a :: rest).takeWhile (fun t => decide (t ≠ DELIMITER)) =
          a :: rest.takeWhile (fun t => decide (t ≠ DELIMITER)) := by
        rw [List.takeWhile_cons, if_pos (by simpa using ha)]
      rw [htw] at ht
      have hta : a ≠ FLAG_SRC ∧ a ≠ FLAG_OUTPUT := ht a (List.mem_cons_self _ _)
      have hrest : ∀ t ∈ rest.takeWhile (fun t => decide (t ≠ DELIMITER)),
          t ≠ FLAG_SRC ∧ t ≠ FLAG_OUTPUT :=
        fun t hmem => ht t (List.mem_cons_of_mem _ hmem)
      have step : ∀ args' : Args, (∀ kv ∈ args'.source_mappings, kv.1 ≠ []) →
          (∀ kv ∈ args'.output_mappings, kv.1 ≠ []) →
          ∃ (fuel0 : Nat) (res : Int × Args), ∀ fuel, fuel0 ≤ fuel →
            parse_loop fuel win32 runfiles rest args' false = some res :=
        fun args' h1 h2 => ih args' h1 h2 hrest
      by_cases c1 : starts_with a FLAG_VERILATOR = true
      · obtain ⟨f0, res, h⟩ := step
          { args with verilator_binary := resolve_path win32 (a.drop 12) runfiles } hs ho
        refine ⟨f0, res, fun fuel hf => ?_⟩
        rw [parse_loop, if_neg ha, if_neg Bool.false_ne_true, if_pos c1]
        exact h fuel hf
      by_cases c2 : starts_with a FLAG_SRC = true
      · obtain ⟨f0, res, h⟩ := step
          (Args.mk args.verilator_binary
            (map_assign args.source_mappings (a.drop 6) (resolve_path win32 (a.drop 6) runfiles))
            args.output_mappings args.output_srcs args.output_hdrs args.capture_output
            args.verilator_args)
          (map_assign_keys (a.drop 6) (resolve_path win32 (a.drop 6) runfiles)
            (drop_flag_ne_nil a FLAG_SRC c2 hta.1) args.source_mappings hs) ho
        refine ⟨f0, res, fun fuel hf => ?_⟩
        rw [parse_loop, if_neg ha, if_neg Bool.false_ne_true, if_neg c1, if_pos c2]
        exact h fuel hf
      by_cases c3 : starts_with a FLAG_OUTPUT = true
      · obtain ⟨f0, res, h⟩ := step
          (Args.mk args.verilator_binary args.source_mappings
            (map_assign args.output_mappings (a.drop 9) (normalize_path win32 (a.drop 9)))
            args.output_srcs args.output_hdrs args.capture_output args.verilator_args)
          hs
          (map_assign_keys (a.drop 9) (normalize_path win32 (a.drop 9))
            (drop_flag_ne_nil a FLAG_OUTPUT c3 hta.2) args.output_mappings ho)
        refine ⟨f0, res, fun fuel hf => ?_⟩
        rw [parse_loop, if_neg ha, if_neg Bool.false_ne_true, if_neg c1, if_neg c2, if_pos c3]
        exact h fuel hf
      by_cases c4 : starts_with a FLAG_OUTPUT_SRCS = true
      · obtain ⟨f0, res, h⟩ := step { args with output_srcs := a.drop 14 } hs ho
        refine ⟨f0, res, fun fuel hf => ?_⟩
        rw [parse_loop, if_neg ha, if_neg Bool.false_ne_true, if_neg c1, if_neg c2, if_neg c3,
          if_pos c4]
        exact h fuel hf
      by_cases c5 : starts_with a FLAG_OUTPUT_HDRS = true
      · obtain ⟨f0, res, h⟩ := step { args with output_hdrs := a.drop 14 } hs ho
        refine ⟨f0, res, fun fuel hf => ?_⟩
        rw [parse_loop, if_neg ha, if_neg Bool.false_ne_true, if_neg c1, if_neg c2, if_neg c3,
          if_neg c4, if_pos c5]
        exact h fuel hf
      by_cases c6 : a = FLAG_CAPTURE_OUTPUT
      · obtain ⟨f0, res, h⟩ := step { args with capture_output := true } hs ho
        refine ⟨f0, res, fun fuel hf => ?_⟩
        rw [parse_loop, if_neg ha, if_neg Bool.false_ne_true, if_neg c1, if_neg c2, if_neg c3,
          if_neg c4, if_neg c5, if_pos c6]
        exact h fuel hf
      · refine ⟨0, (1, args), fun fuel _ => ?_⟩
        rw [parse_loop, if_neg ha, if_neg Bool.false_ne_true, if_neg c1, if_neg c2, if_neg c3,
          if_neg c4, if_neg c5, if_neg c6]

/-- When no token before the delimiter is exactly `--src=` or `--output=`, so
that every recorded key is non-empty, `parse_args` returns, with the same
result for every sufficient fuel. -/
theorem parse_args_total (win32 : Bool) (out_args : Args) (argv : List Str)
    (runfiles : Option Runfiles)
    (h : ∀ t ∈ (argv.drop 1).takeWhile (fun t => decide (t ≠ DELIMITER)),
      t ≠ FLAG_SRC ∧ t ≠ FLAG_OUTPUT) :
    ∃ (fuel0 : Nat) (res : Int × Args), ∀ fuel, fuel0 ≤ fuel →
      parse_args fuel win32 out_args argv runfiles = some res := by
  obtain ⟨f0, ⟨status, args⟩, hres⟩ := parse_loop_before_total win32 runfiles (argv.drop 1) {}
    (by simp) (by simp) h
  by_cases hs : status = 0
  · refine ⟨f0, (0, args), fun fuel hf => ?_⟩
    unfold parse_args
    rw [hres fuel hf]
    simp [hs]
  · refine ⟨f0, (status, out_args), fun fuel hf => ?_⟩
    unfold parse_args
    rw [hres fuel hf]
    simp [hs]

/-- C5: when `parse_args` accepts the argument list, the two maps are in
ascending key order (their iteration order) and the stored arguments are, one
for one and in order, the tokens that reach the pass-through branch, each with
the keys of all source mappings replaced first and the keys of all output
mappings replaced in that result; and when no token before the delimiter is
exactly `--src=` or `--output=`, `parse_args` does return for every sufficient
fuel. -/
theorem stored_argument_sources_then_outputs (win32 : Bool) (out_args : Args)
    (argv : List Str) (runfiles : Option Runfiles) :
    (∀ (fuel : Nat) (args : Args),
      parse_args fuel win32 out_args argv runfiles = some (0, args) →
      ascending_keys args.source_mappings ∧ ascending_keys args.output_mappings ∧
      List.Forall₂
        (fun a stored => ∃ a',
          replace_mappings fuel args.source_mappings a = some a' ∧
          replace_mappings fuel args.output_mappings a' = some stored)
        (pass_through (argv.drop 1)) args.verilator_args) ∧
    ((∀ t ∈ (argv.drop 1).takeWhile (fun t => decide (t ≠ DELIMITER)),
        t ≠ FLAG_SRC ∧ t ≠ FLAG_OUTPUT) →
      ∃ (fuel0 : Nat) (res : Int × Args), ∀ fuel, fuel0 ≤ fuel →
        parse_args fuel win32 out_args argv runfiles = some res) := by
  refine ⟨?_, parse_args_total win32 out_args argv runfiles⟩
  intro fuel args h
  unfold parse_args at h
  cases hp : parse_loop fuel win32 runfiles (argv.drop 1) {} false with
  | none => rw [hp] at h; simp at h
  | some r =>
    obtain ⟨status, args'⟩ := r
    rw [hp] at h
    simp only at h
    by_cases hs : status = 0
    · subst hs
      simp only [if_true, Option.some.injEq, Prod.mk.injEq, true_and] at h
      subst h
      obtain ⟨new, h1, h2⟩ := parse_loop_before fuel win32 runfiles _ _ _ hp
      have h3 : args'.verilator_args = new := by simpa using h1
      obtain ⟨h4, h5⟩ := parse_loop_ascending fuel win32 runfiles _ _ _ _ hp
        List.Pairwise.nil List.Pairwise.nil
      rw [h3]
      exact ⟨h4, h5, h2.imp (fun a stored hsub => (substitute_some _ _ _ _ _).mp hsub)⟩
    · simp [hs] at h

theorem stored_argument_sources_then_outputs_witness :
    parse_args 3 true {} ["w".toList, "--src=s".toList, "--output=o/x".toList, DELIMITER,
        "-I".toList, "s".toList] (some windows_runfiles) =
      some (0, { source_mappings := [("s".toList, "o/x".toList)],
                 output_mappings := [("o/x".toList, ['o', Char.ofNat 92, 'x'])],
                 verilator_args := ["-I".toList, ['o', Char.ofNat 92, 'x']] }) ∧
    List.Forall₂
      (fun a stored => ∃ a',
        replace_mappings 3 [("s".toList, "o/x".toList)] a = some a' ∧
        replace_mappings 3 [("o/x".toList, ['o', Char.ofNat 92, 'x'])] a' = some stored)
      ["-I".toList, "s".toList] ["-I".toList, ['o', Char.ofNat 92, 'x']] :=
  ⟨by decide,
   ((stored_argument_sources_then_outputs true {} ["w".toList, "--src=s".toList,
     "--output=o/x".toList, DELIMITER, "-I".toList, "s".toList] (some windows_runfiles)).1 3
     { source_mappings := [("s".toList, "o/x".toList)],
       output_mappings := [("o/x".toList, ['o', Char.ofNat 92, 'x'])],
       verilator_args := ["-I".toList, ['o', Char.ofNat 92, 'x']] } (by decide)).2.2⟩

/-! ### Exit codes and captured output -/

/-- C6 (code defect): on a POSIX host the wrapped tool exits with code 1.
Without `--capture_output` the value `main` returns is the raw wait status
256, whose low eight bits, the exit status of the wrapper, are 0; with
`--capture_output` it is 1. -/
theorem raw_status_loses_exit_code :
    main 0 failing_tool_host [] ["w".toList, "--verilator=v".toList] =
      some { exit := Exit.returned 256, stdout := [], launched := ["v ".toList],
             result := some 256, captured_output := [], fs := [] } ∧
    process_exit_status 256 = 0 ∧
    main 0 failing_tool_host [] ["w".toList, "--verilator=v".toList, FLAG_CAPTURE_OUTPUT] =
      some { exit := Exit.returned 1, stdout := "error".toList, launched := ["v ".toList],
             result := some 1, captured_output := "error".toList, fs := [] } ∧
    process_exit_status 1 = 1 := by
  refine ⟨by decide, by decide, by decide, by decide⟩

/-- C7: with capture enabled on a POSIX host, `execute_command` returns the
exit code `(status >> 8) mod 256` for a wait status of a normal exit and
`128 + (status mod 128)` for one of a termination by a signal, a value between
0 and 255 in both cases. -/
theorem capture_exit_code (host : Host) (fs fs1 : FS) (cmd captured_output : Str)
    (buffers : List Str) (status : Int) (hposix : host.win32 = false)
    (hp : host.popen (c_str (cmd ++ REDIRECT)) fs = some (buffers, status, fs1)) :
    (WIFEXITED status = true →
      (execute_command host fs cmd true captured_output).1 = (status >>> (8 : Nat)) % 256) ∧
    (WIFSIGNALED status = true →
      (execute_command host fs cmd true captured_output).1 = 128 + status % 128) ∧
    (WIFEXITED status = true ∨ WIFSIGNALED status = true →
      0 ≤ (execute_command host fs cmd true captured_output).1 ∧
      (execute_command host fs cmd true captured_output).1 ≤ 255) := by
  have hshift : status >>> (8 : Nat) = status / 256 := by
    rw [Int.shiftRight_eq_div_pow]; norm_num
  have hex : WIFEXITED status = true →
      (execute_command host fs cmd true captured_output).1 = (status / 256) % 256 := by
    intro h
    simp [execute_command, hp, hposix, h, WEXITSTATUS]
  have hsig : WIFSIGNALED status = true →
      (execute_command host fs cmd true captured_output).1 = 128 + status % 128 ∧
      1 ≤ status % 128 ∧ status % 128 ≤ 126 := by
    intro h
    have hb : 1 ≤ status % 128 ∧ status % 128 ≤ 126 := by
      simp only [WIFSIGNALED, WTERMSIG, decide_eq_true_eq] at h
      have h0 : 0 ≤ status % 128 := Int.emod_nonneg _ (by norm_num)
      have h1 : status % 128 < 128 := Int.emod_lt_of_pos _ (by norm_num)
      split_ifs at h <;> omega
    have hne : WIFEXITED status = false := by
      simp only [WIFEXITED, WTERMSIG, decide_eq_false_iff_not]
      omega
    refine ⟨?_, hb⟩
    simp [execute_command, hp, hposix, h, hne, WTERMSIG]
  refine ⟨fun h => by rw [hshift]; exact hex h, fun h => (hsig h).1, ?_⟩
  rintro (h | h)
  · rw [hex h]
    exact ⟨Int.emod_nonneg _ (by norm_num), by
      have := Int.emod_lt_of_pos (status / 256) (show (0 : Int) < 256 by norm_num); omega⟩
  · obtain ⟨h1, h2, h3⟩ := hsig h
    rw [h1]; omega

theorem capture_exit_code_witness :
    (execute_command failing_tool_host [] "v ".toList true []).1 = (256 >>> (8 : Nat)) % 256 ∧
    (execute_command failing_tool_host [] "v ".toList true []).1 = 1 :=
  ⟨(capture_exit_code failing_tool_host [] [] "v ".toList [] ["error".toList] 256 rfl rfl).1
     (by decide), by decide⟩

theorem main_after_execute_stdout (fuel : Nat) (host : Host) (fs : FS) (argv : List Str)
    (args : Args) (cmd : Str) (hargs : main_args fuel host fs argv = some (0, args))
    (hcmd : build_command args = some cmd) :
    ∃ r, main fuel host fs argv = some r ∧
      r.result = some (execute_command host fs cmd args.capture_output []).1 ∧
      r.captured_output = (execute_command host fs cmd args.capture_output []).2.1 ∧
      r.launched = [cmd] ∧
      r.stdout = print_captured host args.capture_output
        (execute_command host fs cmd args.capture_output []).2.1
        (execute_command host fs cmd args.capture_output []).1 := by
  simp only [main, hargs, hcmd]
  rcases hx : execute_command host fs cmd args.capture_output [] with ⟨result, captured, fs1⟩
  simp only [ne_eq, not_true_eq_false, if_false]
  by_cases hr : result = 0
  · simp only [hr, not_true_eq_false, if_false]
    rcases touch_lint_output host fs1 with ⟨ending, fs2⟩
    cases ending with
    | terminated => exact ⟨_, rfl, rfl, rfl, rfl, rfl⟩
    | returned code =>
      simp only
      split_ifs
      all_goals exact ⟨_, rfl, rfl, rfl, rfl, rfl⟩
  · simp only [hr, not_false_eq_true, if_true]
    exact ⟨_, rfl, rfl, rfl, rfl, rfl⟩

/-- C8: with `--capture_output`, whatever buffers the wrapped command writes,
whatever status it ends with and whatever the environment, `main` prints the
captured text when the exit code is non-zero or `RULES_VERILOG_VERILATOR_DEBUG`
is set, and prints nothing otherwise. -/
theorem captured_output_printed_iff (fuel : Nat) (host : Host) (fs fs1 : FS)
    (argv : List Str) (args : Args) (cmd : Str) (buffers : List Str) (status : Int)
    (hargs : main_args fuel host fs argv = some (0, args))
    (hcap : args.capture_output = true) (hcmd : build_command args = some cmd)
    (hp : host.popen (c_str (cmd ++ REDIRECT)) fs = some (buffers, status, fs1)) :
    ∃ r code, main fuel host fs argv = some r ∧ r.result = some code ∧
      code = (execute_command host fs cmd true []).1 ∧
      r.captured_output = read_output [] buffers ∧
      r.stdout =
        if code ≠ 0 ∨ (host.getenv DEBUG).isSome = true then read_output [] buffers else [] := by
  obtain ⟨r, h1, h2, h3, _, h5⟩ := main_after_execute_stdout fuel host fs argv args cmd hargs hcmd
  rw [hcap] at h2 h3 h5
  have hc : (execute_command host fs cmd true []).2.1 = read_output [] buffers := by
    simp only [execute_command, hp]
    split_ifs <;> first | rfl | simp_all
  rw [hc] at h3 h5
  refine ⟨r, _, h1, h2, rfl, h3, ?_⟩
  rw [h5]
  simp only [print_captured]
  by_cases he : read_output [] buffers = []
  · simp [he]
  · by_cases hr : (execute_command host fs cmd true []).1 = 0 <;>
      cases hd : (host.getenv DEBUG).isSome <;> simp [he, hr, hd]

theorem captured_output_printed_iff_witness :
    main 0 quiet_tool_host [] ["w".toList, "--verilator=v".toList, FLAG_CAPTURE_OUTPUT] =
      some { exit := Exit.returned 0, stdout := [], launched := ["v ".toList],
             result := some 0, captured_output := "done".toList, fs := [] } ∧
    ∃ r code, main 0 quiet_tool_host [] ["w".toList, "--verilator=v".toList,
        FLAG_CAPTURE_OUTPUT] = some r ∧ r.result = some code ∧
      code = (execute_command quiet_tool_host [] "v ".toList true []).1 ∧
      r.captured_output = read_output [] ["done".toList] ∧
      r.stdout =
        if code ≠ 0 ∨ (quiet_tool_host.getenv DEBUG).isSome = true then
          read_output [] ["done".toList]
        else [] :=
  ⟨by decide,
   captured_output_printed_iff 0 quiet_tool_host [] [] ["w".toList, "--verilator=v".toList,
     FLAG_CAPTURE_OUTPUT] { verilator_binary := "v".toList, capture_output := true }
     "v ".toList ["done".toList] 0 (by decide) rfl (by decide) rfl⟩

/-! ### The file system and the output reorganisation -/

theorem fs_lookup_erase (fs : FS) (p q : Path) :
    fs_lookup (fs_erase fs p) q = if q = p then none else fs_lookup fs q := by
  induction fs with
  | nil => simp [fs_erase, fs_lookup]
  | cons e rest ih =>
    obtain ⟨r, n⟩ := e
    unfold fs_erase at ih ⊢
    by_cases hr : r = p
    · subst hr
      simp only [List.filter_cons, ne_eq, not_true_eq_false, decide_False, Bool.false_eq_true,
        if_false, ih, fs_lookup]
      by_cases hq : q = r
      · simp [hq]
      · simp [hq, Ne.symm hq]
    · simp only [List.filter_cons, ne_eq, hr, not_false_eq_true, decide_True, if_true,
        fs_lookup, ih]
      by_cases hq : q = p
      · subst hq; simp [hr]
      · simp [hq]

theorem fs_lookup_write (fs : FS) (p q : Path) (n : Node) :
    fs_lookup (fs_write fs p n) q = if q = p then some n else fs_lookup fs q := by
  simp only [fs_write, fs_lookup, fs_lookup_erase]
  by_cases hq : q = p
  · simp [hq]
  · simp [hq, Ne.symm hq]

theorem node_at_erase (fs : FS) (p q : Path) (hp : p.comps ≠ []) :
    node_at (fs_erase fs p) q = if q = p then none else node_at fs q := by
  simp only [node_at, fs_lookup_erase]
  by_cases hq : q = p
  · subst hq; simp [hp]
  · simp [hq]

theorem node_at_write (fs : FS) (p q : Path) (n : Node) (hp : p.comps ≠ []) :
    node_at (fs_write fs p n) q = if q = p then some n else node_at fs q := by
  simp only [node_at, fs_lookup_write]
  by_cases hq : q = p
  · subst hq; simp [hp]
  · simp [hq]

theorem child_comps_ne (d : Path) (n : Str) : (d.child n).comps ≠ [] := by
  simp [Path.child]

theorem child_name_eq (d d' : Path) (n n' : Str) (h : d.child n = d'.child n') : n = n' := by
  have := congrArg Path.comps h
  simp only [Path.child] at this
  exact List.singleton_inj.mp (List.append_inj_right' this rfl)

theorem node_at_child (fs : FS) (d : Path) (n : Str) :
    node_at fs (d.child n) = fs_lookup fs (d.child n) := by
  simp [node_at, child_comps_ne]

theorem copy_file_some (fs fs' : FS) (src dst : Path) (h : copy_file fs src dst = some fs') :
    ∃ c, node_at fs src = some (Node.file c) ∧ dst ≠ src ∧ dst.comps ≠ [] ∧
      fs' = fs_write fs dst (Node.file c) := by
  unfold copy_file at h
  cases hs : node_at fs src with
  | none => simp [hs] at h
  | some n =>
    cases n with
    | dir => simp [hs] at h
    | file c =>
      simp only [hs] at h
      have hcomps : node_at fs dst ≠ some Node.dir → dst.comps ≠ [] := by
        intro hx hc
        exact hx (by simp [node_at, hc])
      cases hd : node_at fs dst with
      | none =>
        simp only [hd] at h
        split_ifs at h
        refine ⟨c, rfl, ?_, hcomps (by simp [hd]), by simpa using h.symm⟩
        intro heq; rw [heq, hs] at hd; simp at hd
      | some m =>
        cases m with
        | dir => simp [hd] at h
        | file c' =>
          simp only [hd] at h
          split_ifs at h with heq
          exact ⟨c, rfl, heq, hcomps (by simp [hd]), by simpa using h.symm⟩

theorem fs_remove_file (fs : FS) (p : Path) (c : Str) (h : node_at fs p = some (Node.file c)) :
    fs_remove fs p = some (fs_erase fs p) := by
  simp [fs_remove, h]

theorem fs_lookup_isSome (fs : FS) (p : Path) :
    (fs_lookup fs p).isSome = true ↔ ∃ e ∈ fs, e.1 = p := by
  induction fs with
  | nil => simp [fs_lookup]
  | cons e rest ih =>
    obtain ⟨r, n⟩ := e
    simp only [fs_lookup]
    by_cases hr : r = p
    · simp [hr]
    · simp [hr, ih]

theorem entry_name_eq (d q : Path) (n : Str) : entry_name d q = some n ↔ q = d.child n := by
  obtain ⟨qa, qc⟩ := q
  obtain ⟨da, dc⟩ := d
  simp only [entry_name, Path.child, Path.mk.injEq]
  constructor
  · intro h
    split_ifs at h with hc
    obtain ⟨h1, h2, h3⟩ := hc
    refine ⟨h1, ?_⟩
    rw [← h3]
    have := List.dropLast_append_getLast? n h
    exact (this).symm
  · rintro ⟨h1, h2⟩
    subst h1; subst h2
    simp

theorem mem_directory_iterator (fs : FS) (d : Path) (n : Str) :
    n ∈ directory_iterator fs d ↔ (node_at fs (d.child n)).isSome = true := by
  rw [node_at_child, fs_lookup_isSome]
  simp only [directory_iterator, List.mem_dedup, List.mem_filterMap, entry_name_eq]

theorem nodup_directory_iterator (fs : FS) (d : Path) : (directory_iterator fs d).Nodup :=
  List.nodup_dedup _

theorem create_directories_from_files (absolute : Bool) :
    ∀ (rest : List Str) (fs : FS) (done : List Str) (fs' : FS),
      create_directories_from absolute fs done rest = some fs' →
      ∀ q c, node_at fs' q = some (Node.file c) ↔ node_at fs q = some (Node.file c) := by
  intro rest
  induction rest with
  | nil =>
    intro fs done fs' h q c
    simp only [create_directories_from, Option.some.injEq] at h
    rw [h]
  | cons x rest ih =>
    intro fs done fs' h q c
    simp only [create_directories_from] at h
    cases hn : node_at fs { absolute := absolute, comps := done ++ [x] } with
    | none =>
      simp only [hn] at h
      rw [ih _ _ _ h q c, node_at_write _ _ _ _ (by simp)]
      by_cases hq : q = { absolute := absolute, comps := done ++ [x] }
      · subst hq; simp [hn]
      · simp [hq]
    | some n =>
      cases n with
      | dir =>
        simp only [hn] at h
        exact ih _ _ _ h q c
      | file c' => simp [hn] at h

theorem create_directories_files (fs fs' : FS) (p : Path)
    (h : create_directories fs p = some fs') (q : Path) (c : Str) :
    node_at fs' q = some (Node.file c) ↔ node_at fs q = some (Node.file c) :=
  create_directories_from_files p.absolute p.comps fs [] fs' h q c

theorem dest_path_name (output_srcs output_hdrs filename : Str) (q : Path)
    (h : dest_path output_srcs output_hdrs filename = some q) :
    ∃ d : Path, q = d.child filename := by
  unfold dest_path at h
  split_ifs at h
  · exact ⟨_, (Option.some.inj h).symm⟩
  · exact ⟨_, (Option.some.inj h).symm⟩

theorem is_regular_file_iff (fs : FS) (p : Path) :
    is_regular_file fs p = true ↔ ∃ c, node_at fs p = some (Node.file c) := by
  unfold is_regular_file
  cases node_at fs p with
  | none => simp
  | some n => cases n <;> simp

/-- One pass of the loop over an entry that is a regular file. -/
theorem process_entries_step (dir_path : Path) (output_srcs output_hdrs : Str)
    (filename : Str) (rest : List Str) (fs fs' : FS) (c : Str)
    (hreg : node_at fs (dir_path.child filename) = some (Node.file c))
    (h : process_entries dir_path output_srcs output_hdrs (filename :: rest) fs = (none, fs')) :
    ∃ fs2, process_entries dir_path output_srcs output_hdrs rest fs2 = (none, fs') ∧
      ∀ p, node_at fs2 p =
        if p = dir_path.child filename then none
        else if dest_path output_srcs output_hdrs filename = some p then some (Node.file c)
        else node_at fs p := by
  have hr : is_regular_file fs (dir_path.child filename) = true :=
    (is_regular_file_iff _ _).mpr ⟨c, hreg⟩
  rw [process_entries] at h
  simp only [hr, if_true] at h
  cases hd : dest_path output_srcs output_hdrs filename with
  | none =>
    simp only [hd] at h
    rw [fs_remove_file fs _ c hreg] at h
    refine ⟨fs_erase fs (dir_path.child filename), by simpa using h, ?_⟩
    intro p
    rw [node_at_erase _ _ _ (child_comps_ne _ _)]
    simp
  | some q =>
    simp only [hd] at h
    cases hc : copy_file fs (dir_path.child filename) q with
    | none => simp [hc] at h
    | some fs1 =>
      simp only [hc] at h
      obtain ⟨c', h1, h2, h3, h4⟩ := copy_file_some _ _ _ _ hc
      rw [hreg] at h1
      obtain rfl : c = c' := by simpa using h1
      have hreg1 : node_at fs1 (dir_path.child filename) = some (Node.file c) := by
        rw [h4, node_at_write _ _ _ _ h3, if_neg (Ne.symm h2), hreg]
      rw [fs_remove_file fs1 _ c hreg1] at h
      refine ⟨fs_erase fs1 (dir_path.child filename), by simpa using h, ?_⟩
      intro p
      rw [node_at_erase _ _ _ (child_comps_ne _ _), h4, node_at_write _ _ _ _ h3]
      by_cases hp : p = dir_path.child filename
      · simp [hp]
      · by_cases hq : p = q
        · simp [hp, hq]
        · have : ¬ q = p := fun e => hq e.symm
          simp [hp, hq, this]

/-- The effect of the loop of `copy_and_filter_outputs` when it runs to its end. -/
theorem process_entries_spec (dir_path : Path) (output_srcs output_hdrs : Str) :
    ∀ (names : List Str) (fs fs' : FS), names.Nodup →
      process_entries dir_path output_srcs output_hdrs names fs = (none, fs') →
      (∀ n ∈ names, ∀ c, node_at fs (dir_path.child n) = some (Node.file c) →
        node_at fs' (dir_path.child n) = none ∧
        ∀ q, dest_path output_srcs output_hdrs n = some q →
          node_at fs' q = some (Node.file c)) ∧
      (∀ p, (∀ n ∈ names, ∀ c, node_at fs (dir_path.child n) = some (Node.file c) →
          p ≠ dir_path.child n ∧ dest_path output_srcs output_hdrs n ≠ some p) →
        node_at fs' p = node_at fs p) := by
  intro names
  induction names with
  | nil =>
    intro fs fs' _ h
    simp only [process_entries, Prod.mk.injEq, true_and] at h
    subst h
    exact ⟨by simp, fun _ _ => rfl⟩
  | cons x rest ih =>
    intro fs fs' hnd h
    obtain ⟨hx, hrest⟩ := List.nodup_cons.mp hnd
    by_cases hr : is_regular_file fs (dir_path.child x) = true
    · obtain ⟨c0, hreg⟩ := (is_regular_file_iff _ _).mp hr
      obtain ⟨fs2, hloop, hfs2⟩ := process_entries_step _ _ _ _ _ _ _ c0 hreg h
      obtain ⟨ihA, ihB⟩ := ih fs2 fs' hrest hloop
      -- entries of the rest are untouched by the step
      have hkeep : ∀ m ∈ rest, node_at fs2 (dir_path.child m) = node_at fs (dir_path.child m) := by
        intro m hm
        have hne : m ≠ x := fun e => hx (e ▸ hm)
        rw [hfs2]
        have h1 : dir_path.child m ≠ dir_path.child x := fun e => hne (child_name_eq _ _ _ _ e)
        have h2 : dest_path output_srcs output_hdrs x ≠ some (dir_path.child m) := by
          intro e
          obtain ⟨d, hd⟩ := dest_path_name _ _ _ _ e
          exact hne (child_name_eq _ _ _ _ hd)
        simp [h1, h2]
      -- paths named after `x` are untouched by the rest of the loop
      have hlater : ∀ (d : Path), node_at fs' (d.child x) = node_at fs2 (d.child x) := by
        intro d
        apply ihB
        intro m hm c _
        have hne : x ≠ m := fun e => hx (e ▸ hm)
        refine ⟨fun e => hne (child_name_eq _ _ _ _ e), ?_⟩
        intro e
        obtain ⟨d', hd'⟩ := dest_path_name _ _ _ _ e
        exact hne (child_name_eq _ _ _ _ hd')
      constructor
      · intro n hn c hc
        rcases List.mem_cons.mp hn with rfl | hmem
        · rw [hreg] at hc
          obtain rfl : c0 = c := by simpa using hc
          refine ⟨by rw [hlater, hfs2]; simp, ?_⟩
          intro q hq
          obtain ⟨d, rfl⟩ := dest_path_name _ _ _ _ hq
          rw [hlater, hfs2]
          have hne : d.child n ≠ dir_path.child n := by
            intro e
            -- the copy would have targeted the entry itself
            have hq' : dest_path output_srcs output_hdrs n = some (dir_path.child n) := by
              rw [hq, e]
            rw [process_entries] at h
            simp only [hr, if_true, hq'] at h
            cases hcp : copy_file fs (dir_path.child n) (dir_path.child n) with
            | none => simp [hcp] at h
            | some fs1 =>
              obtain ⟨_, _, hself, _⟩ := copy_file_some _ _ _ _ hcp
              exact hself rfl
          simp [hne, hq]
        · exact ihA n hmem c (by rw [hkeep n hmem]; exact hc)
      · intro p hp
        have h1 := hp x (List.mem_cons_self _ _) c0 hreg
        rw [ihB p (fun m hm c hc => hp m (List.mem_cons_of_mem _ hm) c
          (by rw [← hkeep m hm]; exact hc)), hfs2]
        simp [h1.1, h1.2]
    · have hskip : process_entries dir_path output_srcs output_hdrs rest fs = (none, fs') := by
        rw [process_entries] at h
        simpa [hr] using h
      obtain ⟨ihA, ihB⟩ := ih fs fs' hrest hskip
      constructor
      · intro n hn c hc
        rcases List.mem_cons.mp hn with rfl | hmem
        · exact absurd ((is_regular_file_iff _ _).mpr ⟨c, hc⟩) hr
        · exact ihA n hmem c hc
      · intro p hp
        exact ihB p (fun m hm c hc => hp m (List.mem_cons_of_mem _ hm) c hc)

theorem process_entries_code (dir_path : Path) (output_srcs output_hdrs : Str) :
    ∀ (names : List Str) (fs fs' : FS) (code : Int),
      process_entries dir_path output_srcs output_hdrs names fs = (some code, fs') →
      code = 1 := by
  intro names
  induction names with
  | nil => intro fs fs' code h; simp [process_entries] at h
  | cons x rest ih =>
    intro fs fs' code h
    rw [process_entries] at h
    simp only at h
    split_ifs at h
    all_goals first
      | exact ih _ _ _ h
      | (split at h <;> first
          | (simp at h; exact h.1.symm)
          | (split at h <;> first
              | (simp at h; exact h.1.symm)
              | exact ih _ _ _ h))

theorem ends_with_any_iff (filename : Str) (suffixes : List Str) :
    ends_with_any filename suffixes = true ↔ ∃ s ∈ suffixes, s <:+ filename := by
  induction suffixes with
  | nil => simp [ends_with_any]
  | cons s rest ih =>
    have hs : (s.length ≤ filename.length ∧
        filename.drop (filename.length - s.length) = s) ↔ s <:+ filename := by
      constructor
      · rintro ⟨_, h⟩
        exact List.suffix_iff_eq_drop.mpr h.symm
      · intro h
        exact ⟨h.length_le, (List.suffix_iff_eq_drop.mp h).symm⟩
    simp only [ends_with_any, hs, List.mem_cons, exists_eq_or_imp]
    by_cases h : s <:+ filename
    · simp [h]
    · simp [h, ih]

/-- No file name has both a source and a header extension. -/
theorem source_not_header (filename : Str)
    (hs : ends_with_any filename source_extensions = true)
    (hh : ends_with_any filename header_extensions = true) : False := by
  obtain ⟨s, hs1, hs2⟩ := (ends_with_any_iff _ _).mp hs
  obtain ⟨t, ht1, ht2⟩ := (ends_with_any_iff _ _).mp hh
  have hno : ∀ s ∈ source_extensions, ∀ t ∈ header_extensions, ¬ s <:+ t ∧ ¬ t <:+ s := by
    decide
  obtain ⟨h1, h2⟩ := hno s hs1 t ht1
  rcases List.suffix_or_suffix_of_suffix hs2 ht2 with h | h
  · exact h1 h
  · exact h2 h

theorem has_files_iff (fs : FS) (d : Path) :
    has_files fs d = true ↔ ∃ n c, node_at fs (d.child n) = some (Node.file c) := by
  simp only [has_files, List.any_eq_true, mem_directory_iterator, is_regular_file_iff]
  constructor
  · rintro ⟨n, _, c, hc⟩
    exact ⟨n, c, hc⟩
  · rintro ⟨n, c, hc⟩
    exact ⟨n, by simp [hc], c, hc⟩

/-- What a call of `copy_and_filter_outputs` that runs its loop to the end
went through. -/
theorem copy_and_filter_outputs_stages (fs fs' : FS) (output_dir output_srcs output_hdrs : Str)
    (ending : Exit) (hdir : output_dir ≠ []) (hconf : output_srcs ≠ [] ∨ output_hdrs ≠ [])
    (h : copy_and_filter_outputs fs output_dir output_srcs output_hdrs = (ending, fs')) :
    (ending = Exit.returned 1 ∨ ending = Exit.terminated) ∨
    ∃ fs2, (∀ q c, node_at fs2 q = some (Node.file c) ↔ node_at fs q = some (Node.file c)) ∧
      process_entries (path_of output_dir) output_srcs output_hdrs
        (directory_iterator fs2 (path_of output_dir)) fs2 = (none, fs') ∧
      ending = verify_outputs fs' output_srcs output_hdrs := by
  unfold copy_and_filter_outputs at h
  have hg : ¬ (output_dir = [] ∨ output_srcs = [] ∧ output_hdrs = []) := by
    rintro (h1 | ⟨h1, h2⟩)
    · exact hdir h1
    · rcases hconf with h3 | h3
      · exact h3 h1
      · exact h3 h2
  rw [if_neg hg] at h
  simp only at h
  split at h
  · left; left; simp only [Prod.mk.injEq] at h; exact h.1.symm
  · generalize h1 : (if output_srcs ≠ [] then create_directories fs (path_of output_srcs)
        else some fs) = o1 at h
    cases o1 with
    | none => left; right; simp only [Prod.mk.injEq] at h; exact h.1.symm
    | some fs1 =>
      simp only at h
      have hf1 : ∀ q c, node_at fs1 q = some (Node.file c) ↔ node_at fs q = some (Node.file c) := by
        intro q c
        split_ifs at h1
        · exact create_directories_files _ _ _ h1 q c
        · simp only [Option.some.injEq] at h1; rw [h1]
      generalize h2 : (if output_hdrs ≠ [] then create_directories fs1 (path_of output_hdrs)
          else some fs1) = o2 at h
      cases o2 with
      | none => left; right; simp only [Prod.mk.injEq] at h; exact h.1.symm
      | some fs2 =>
        simp only at h
        have hf2 : ∀ q c, node_at fs2 q = some (Node.file c) ↔
            node_at fs q = some (Node.file c) := by
          intro q c
          rw [← hf1]
          split_ifs at h2
          · exact create_directories_files _ _ _ h2 q c
          · simp only [Option.some.injEq] at h2; rw [h2]
        rcases hpe : process_entries (path_of output_dir) output_srcs output_hdrs
            (directory_iterator fs2 (path_of output_dir)) fs2 with ⟨oc, fs3⟩
        rw [hpe] at h
        cases oc with
        | some code =>
          simp only [Prod.mk.injEq] at h
          obtain ⟨h3, h4⟩ := h
          left; left
          rw [← h3, process_entries_code _ _ _ _ _ _ _ hpe]
        | none =>
          simp only [Prod.mk.injEq] at h
          obtain ⟨h3, h4⟩ := h
          subst h4
          right
          exact ⟨fs2, hf2, hpe, h3.symm⟩

/-- C9: when `copy_and_filter_outputs` is called with both destinations
configured on an output directory and returns 0, every regular file that was
directly inside the directory is gone from it; a copy with the same content is
in the sources destination if its name has a source extension and in the
headers destination if it has a header extension; and every regular file of
the final state is either unchanged or such a copy, so that a file of neither
kind is copied nowhere. -/
theorem copy_and_filter_outputs_sorts_files (fs fs' : FS)
    (output_dir output_srcs output_hdrs : Str)
    (hdir : output_dir ≠ []) (hs : output_srcs ≠ []) (hh : output_hdrs ≠ [])
    (h : copy_and_filter_outputs fs output_dir output_srcs output_hdrs =
      (Exit.returned 0, fs')) :
    (∀ name content,
      node_at fs ((path_of output_dir).child name) = some (Node.file content) →
      node_at fs' ((path_of output_dir).child name) = none ∧
      (ends_with_any name source_extensions = true →
        node_at fs' ((path_of output_srcs).child name) = some (Node.file content)) ∧
      (ends_with_any name header_extensions = true →
        node_at fs' ((path_of output_hdrs).child name) = some (Node.file content))) ∧
    (∀ p content, node_at fs' p = some (Node.file content) →
      node_at fs p = some (Node.file content) ∨
      ∃ name, node_at fs ((path_of output_dir).child name) = some (Node.file content) ∧
        ((ends_with_any name source_extensions = true ∧
            p = (path_of output_srcs).child name) ∨
         (ends_with_any name header_extensions = true ∧
            p = (path_of output_hdrs).child name))) := by
  rcases copy_and_filter_outputs_stages fs fs' output_dir output_srcs output_hdrs _ hdir
    (Or.inl hs) h with (h1 | h1) | ⟨fs2, hfiles, hloop, _⟩
  · simp at h1
  · simp at h1
  obtain ⟨hA, hB⟩ := process_entries_spec _ _ _ _ _ _ (nodup_directory_iterator _ _) hloop
  have hmem : ∀ name content,
      node_at fs2 ((path_of output_dir).child name) = some (Node.file content) →
      name ∈ directory_iterator fs2 (path_of output_dir) := by
    intro name content hc
    exact (mem_directory_iterator _ _ _).mpr (by simp [hc])
  have hdest : ∀ name q, dest_path output_srcs output_hdrs name = some q →
      (ends_with_any name source_extensions = true ∧ q = (path_of output_srcs).child name) ∨
      (ends_with_any name header_extensions = true ∧ q = (path_of output_hdrs).child name) := by
    intro name q hq
    unfold dest_path at hq
    split_ifs at hq with c1 c2
    · exact Or.inl ⟨c1.2, (Option.some.inj hq).symm⟩
    · exact Or.inr ⟨c2.2, (Option.some.inj hq).symm⟩
  constructor
  · intro name content hc
    have hc2 := (hfiles _ _).mpr hc
    obtain ⟨h1, h2⟩ := hA name (hmem _ _ hc2) content hc2
    refine ⟨h1, ?_, ?_⟩
    · intro hsrc
      exact h2 _ (by simp [dest_path, hs, hsrc])
    · intro hhdr
      have hns : ¬ ends_with_any name source_extensions = true :=
        fun hsrc => source_not_header name hsrc hhdr
      exact h2 _ (by simp [dest_path, hns, hh, hhdr])
  · intro p content hp
    by_cases hex : ∃ name ∈ directory_iterator fs2 (path_of output_dir), ∃ c,
        node_at fs2 ((path_of output_dir).child name) = some (Node.file c) ∧
        (p = (path_of output_dir).child name ∨
          dest_path output_srcs output_hdrs name = some p)
    · obtain ⟨name, hname, c, hc, hcase⟩ := hex
      obtain ⟨h1, h2⟩ := hA name hname c hc
      rcases hcase with rfl | hq
      · rw [h1] at hp; simp at hp
      · right
        have := h2 p hq
        rw [hp] at this
        obtain rfl : content = c := by simpa using this
        exact ⟨name, (hfiles _ _).mp hc, hdest name p hq⟩
    · left
      rw [← hfiles, ← hB p ?_]
      · exact hp
      · intro n hn c hc
        constructor
        · intro e; exact hex ⟨n, hn, c, hc, Or.inl e⟩
        · intro e; exact hex ⟨n, hn, c, hc, Or.inr e⟩

theorem copy_and_filter_outputs_sorts_files_witness :
    copy_and_filter_outputs sample_outputs "out".toList "S".toList "H".toList =
      (Exit.returned 0, sorted_outputs) ∧
    (node_at sorted_outputs ((path_of "out".toList).child "a.cc".toList) = none ∧
      node_at sorted_outputs ((path_of "S".toList).child "a.cc".toList) =
        some (Node.file "A".toList)) ∧
    (node_at sorted_outputs ((path_of "out".toList).child "a.h".toList) = none ∧
      node_at sorted_outputs ((path_of "H".toList).child "a.h".toList) =
        some (Node.file "B".toList)) ∧
    node_at sorted_outputs ((path_of "out".toList).child "a.log".toList) = none :=
  have h := copy_and_filter_outputs_sorts_files sample_outputs sorted_outputs "out".toList
    "S".toList "H".toList (by decide) (by decide) (by decide) (by decide)
  ⟨by decide,
   ⟨(h.1 "a.cc".toList "A".toList (by decide)).1,
    (h.1 "a.cc".toList "A".toList (by decide)).2.1 (by decide)⟩,
   ⟨(h.1 "a.h".toList "B".toList (by decide)).1,
    (h.1 "a.h".toList "B".toList (by decide)).2.2 (by decide)⟩,
   (h.1 "a.log".toList "C".toList (by decide)).1⟩

/-- How `copy_and_filter_outputs` can end on an output directory. -/
theorem copy_and_filter_outputs_returns (fs fs' : FS)
    (output_dir output_srcs output_hdrs : Str) (code : Int) (hdir : output_dir ≠ [])
    (h : copy_and_filter_outputs fs output_dir output_srcs output_hdrs =
      (Exit.returned code, fs')) :
    code = 1 ∨ (code = 0 ∧
      (output_srcs ≠ [] → has_files fs' (path_of output_srcs) = true) ∧
      (output_hdrs ≠ [] → has_files fs' (path_of output_hdrs) = true)) := by
  by_cases hconf : output_srcs ≠ [] ∨ output_hdrs ≠ []
  · rcases copy_and_filter_outputs_stages fs fs' output_dir output_srcs output_hdrs _ hdir
      hconf h with (h1 | h1) | ⟨fs2, _, _, hv⟩
    · left; simpa using h1
    · simp at h1
    · unfold verify_outputs at hv
      split_ifs at hv with c1 c2 c3 c4
      · left; simpa using hv
      · left; simpa using hv
      · right
        refine ⟨by simpa using hv, fun hs => ?_, fun hh => ?_⟩
        · by_contra hne; exact c2 ⟨hs, hne⟩
        · by_contra hne; exact c4 ⟨hh, hne⟩
  · right
    have h1 : output_srcs = [] := by by_contra hne; exact hconf (Or.inl hne)
    have h2 : output_hdrs = [] := by by_contra hne; exact hconf (Or.inr hne)
    simp [copy_and_filter_outputs, h1, h2] at h
    exact ⟨h.1.symm, fun hs => absurd h1 hs, fun hh => absurd h2 hh⟩

theorem copy_outputs_empty_keys (output_srcs output_hdrs : Str) :
    ∀ (m : List (Str × Str)) (fs : FS), (∀ kv ∈ m, kv.1 = []) →
      copy_outputs output_srcs output_hdrs m fs = (Exit.returned 0, fs) := by
  intro m
  induction m with
  | nil => intro fs _; rfl
  | cons kv rest ih =>
    intro fs h
    obtain ⟨d, v⟩ := kv
    have hd : d = [] := h (d, v) (by simp)
    subst hd
    simp only [copy_outputs, copy_and_filter_outputs, true_or, if_true]
    simpa using ih fs (fun kv hmem => h kv (List.mem_cons_of_mem _ hmem))

/-- How the loop of `main` over the output mappings can end. -/
theorem copy_outputs_returns (output_srcs output_hdrs : Str) :
    ∀ (m : List (Str × Str)) (fs fs' : FS) (code : Int),
      copy_outputs output_srcs output_hdrs m fs = (Exit.returned code, fs') →
      code = 1 ∨ (code = 0 ∧ ((∃ kv ∈ m, kv.1 ≠ []) →
        (output_srcs ≠ [] → has_files fs' (path_of output_srcs) = true) ∧
        (output_hdrs ≠ [] → has_files fs' (path_of output_hdrs) = true))) := by
  intro m
  induction m with
  | nil =>
    intro fs fs' code h
    simp only [copy_outputs, Prod.mk.injEq, Exit.returned.injEq] at h
    right
    exact ⟨h.1.symm, by simp⟩
  | cons kv rest ih =>
    intro fs fs' code h
    obtain ⟨d, v⟩ := kv
    rw [copy_outputs] at h
    rcases hc : copy_and_filter_outputs fs d output_srcs output_hdrs with ⟨ending, fs1⟩
    rw [hc] at h
    cases ending with
    | terminated => simp at h
    | returned c =>
      simp only at h
      by_cases hc0 : c = 0
      · subst hc0
        simp only [ne_eq, not_true_eq_false, if_false] at h
        rcases ih fs1 fs' code h with h1 | ⟨h1, h2⟩
        · exact Or.inl h1
        · right
          refine ⟨h1, ?_⟩
          rintro ⟨kv, hmem, hne⟩
          by_cases hrest : ∃ kv ∈ rest, kv.1 ≠ []
          · exact h2 hrest
          · have hall : ∀ kv ∈ rest, kv.1 = [] := by
              intro kv' hmem'
              by_contra hne'
              exact hrest ⟨kv', hmem', hne'⟩
            rw [copy_outputs_empty_keys _ _ rest fs1 hall] at h
            simp only [Prod.mk.injEq] at h
            obtain ⟨_, rfl⟩ := h
            have hd : d ≠ [] := by
              rcases List.mem_cons.mp hmem with rfl | hmem'
              · exact hne
              · exact absurd (hall kv hmem') hne
            rcases copy_and_filter_outputs_returns fs fs1 d output_srcs output_hdrs 0 hd hc
              with h3 | ⟨_, h3⟩
            · simp at h3
            · exact h3
      · simp only [ne_eq, hc0, not_false_eq_true, if_true, Prod.mk.injEq,
          Exit.returned.injEq] at h
        exact Or.inl h.1.symm

/-- How a run of `main` whose command succeeded can end. -/
theorem main_after_success (fuel : Nat) (host : Host) (fs : FS) (argv : List Str)
    (args : Args) (r : Run) (code : Int)
    (hargs : main_args fuel host fs argv = some (0, args))
    (hmain : main fuel host fs argv = some r) (hres : r.result = some 0)
    (hexit : r.exit = Exit.returned code) :
    code = 1 ∨ (code = 0 ∧ ((∃ kv ∈ args.output_mappings, kv.1 ≠ []) →
      (args.output_srcs ≠ [] → has_files r.fs (path_of args.output_srcs) = true) ∧
      (args.output_hdrs ≠ [] → has_files r.fs (path_of args.output_hdrs) = true))) := by
  simp only [main, hargs, ne_eq, not_true_eq_false, if_false] at hmain
  cases hb : build_command args with
  | none =>
    simp only [hb, Option.some.injEq] at hmain
    subst hmain
    simp at hres
  | some cmd =>
    simp only [hb] at hmain
    rcases hx : execute_command host fs cmd args.capture_output [] with ⟨result, captured, fs1⟩
    rw [hx] at hmain
    simp only at hmain
    by_cases hr : result = 0
    · subst hr
      simp only [not_true_eq_false, if_false] at hmain
      rcases ht : touch_lint_output host fs1 with ⟨ending, fs2⟩
      rw [ht] at hmain
      cases ending with
      | terminated =>
        simp only [Option.some.injEq] at hmain
        subst hmain
        simp at hexit
      | returned c =>
        simp only at hmain
        by_cases hc : c = 0
        · subst hc
          simp only [not_true_eq_false, if_false] at hmain
          by_cases hconf : args.output_srcs ≠ [] ∨ args.output_hdrs ≠ []
          · rw [if_pos hconf] at hmain
            rcases hco : copy_outputs args.output_srcs args.output_hdrs args.output_mappings fs2
              with ⟨ending, fs3⟩
            rw [hco] at hmain
            simp only [Option.some.injEq] at hmain
            subst hmain
            simp only at hexit
            subst hexit
            exact copy_outputs_returns _ _ _ _ _ _ hco
          · rw [if_neg hconf] at hmain
            simp only [Option.some.injEq] at hmain
            subst hmain
            simp only [Exit.returned.injEq] at hexit
            right
            refine ⟨hexit.symm, fun _ => ⟨fun hs => ?_, fun hh => ?_⟩⟩
            · exact absurd (Or.inl hs) hconf
            · exact absurd (Or.inr hh) hconf
        · simp only [hc, not_false_eq_true, if_true, Option.some.injEq] at hmain
          subst hmain
          simp only [Exit.returned.injEq] at hexit
          exact Or.inl hexit.symm
    · simp only [hr, not_false_eq_true, if_true, Option.some.injEq] at hmain
      subst hmain
      simp only [Option.some.injEq] at hres
      exact absurd hres hr

/-- C10: when `copy_and_filter_outputs` returns from a call on an output
directory and a configured destination holds no regular file in the state it
leaves, the returned status is 1; and a run of `main` whose command succeeded
and that ends with a configured destination without a regular file, some
output directory having been given, returns 1. -/
theorem empty_destination_fails :
    (∀ (fs fs' : FS) (output_dir output_srcs output_hdrs : Str) (code : Int),
      output_dir ≠ [] →
      copy_and_filter_outputs fs output_dir output_srcs output_hdrs =
        (Exit.returned code, fs') →
      ((output_srcs ≠ [] ∧
          ¬ ∃ name content,
            node_at fs' ((path_of output_srcs).child name) = some (Node.file content)) ∨
       (output_hdrs ≠ [] ∧
          ¬ ∃ name content,
            node_at fs' ((path_of output_hdrs).child name) = some (Node.file content))) →
      code = 1) ∧
    (∀ (fuel : Nat) (host : Host) (fs : FS) (argv : List Str) (args : Args) (r : Run)
        (code : Int),
      main_args fuel host fs argv = some (0, args) →
      main fuel host fs argv = some r → r.result = some 0 →
      r.exit = Exit.returned code →
      (∃ kv ∈ args.output_mappings, kv.1 ≠ []) →
      ((args.output_srcs ≠ [] ∧
          ¬ ∃ name content,
            node_at r.fs ((path_of args.output_srcs).child name) = some (Node.file content)) ∨
       (args.output_hdrs ≠ [] ∧
          ¬ ∃ name content,
            node_at r.fs ((path_of args.output_hdrs).child name) = some (Node.file content))) →
      code = 1) := by
  constructor
  · intro fs fs' output_dir output_srcs output_hdrs code hdir h hempty
    rcases copy_and_filter_outputs_returns fs fs' output_dir output_srcs output_hdrs code hdir h
      with h1 | ⟨_, h2, h3⟩
    · exact h1
    · exfalso
      rcases hempty with ⟨hs, hno⟩ | ⟨hh, hno⟩
      · exact hno ((has_files_iff _ _).mp (h2 hs))
      · exact hno ((has_files_iff _ _).mp (h3 hh))
  · intro fuel host fs argv args r code hargs hmain hres hexit hkey hempty
    rcases main_after_success fuel host fs argv args r code hargs hmain hres hexit
      with h1 | ⟨_, h2⟩
    · exact h1
    · exfalso
      obtain ⟨h3, h4⟩ := h2 hkey
      rcases hempty with ⟨hs, hno⟩ | ⟨hh, hno⟩
      · exact hno ((has_files_iff _ _).mp (h3 hs))
      · exact hno ((has_files_iff _ _).mp (h4 hh))

theorem empty_destination_fails_witness :
    main 0 header_tool_host [] ["w".toList, "--verilator=v".toList, "--output=out".toList,
        "--output_srcs=S".toList, "--output_hdrs=H".toList] =
      some { exit := Exit.returned 1, stdout := [], launched := ["v ".toList],
             result := some 0, captured_output := [], fs := sorted_header_outputs } ∧
    node_at sorted_header_outputs ((path_of "H".toList).child "a.h".toList) =
      some (Node.file "B".toList) ∧
    ∀ code, copy_and_filter_outputs header_outputs "out".toList "S".toList "H".toList =
      (Exit.returned code, sorted_header_outputs) → code = 1 :=
  ⟨by decide, by decide, fun code hc =>
    empty_destination_fails.1 header_outputs sorted_header_outputs "out".toList "S".toList
      "H".toList code (by decide) hc
      (Or.inl ⟨by decide, fun hex =>
        absurd ((has_files_iff sorted_header_outputs (path_of "S".toList)).mpr hex)
          (by decide)⟩)⟩

/-! ### Termination of the replacement loops -/

/-- Where `find` reports an occurrence: at or after the start position and
wholly inside the subject. -/
theorem find_some_bounds (s k : Str) (pos p : Nat) (h : find s k pos = some p) :
    pos ≤ p ∧ p + k.length ≤ s.length := by
  unfold find at h
  split_ifs at h with hle
  rw [find_from_shift] at h
  cases hq : find_from k (s.drop pos) 0 with
  | none => simp [hq] at h
  | some q =>
    simp only [hq, Option.map_some', Option.some.injEq] at h
    obtain ⟨_, h2⟩ := find_some_split k (s.drop pos) q hq
    simp only [List.length_drop] at h2
    omega

/-- One iteration of the replacement loop: the search resumes just past the
inserted text, the text before that position is the old text up to the
occurrence followed by the inserted value, and the number of positions left to
search has decreased. -/
theorem replace_step_decreases (k v modified : Str) (pos p : Nat) (hk : k ≠ [])
    (h : find modified k pos = some p) :
    pos ≤ p ∧
    (replace modified p k.length v).take (p + v.length) = modified.take p ++ v ∧
    p + v.length ≤ (replace modified p k.length v).length ∧
    (replace modified p k.length v).length - (p + v.length) < modified.length - pos := by
  obtain ⟨h1, h2⟩ := find_some_bounds modified k pos p h
  have hkl : 0 < k.length := List.length_pos.mpr hk
  have hlen : (replace modified p k.length v).length =
      p + v.length + (modified.length - (p + k.length)) := by
    simp only [replace, List.length_append, List.length_take, List.length_drop]
    omega
  refine ⟨h1, ?_, by omega, by omega⟩
  simp only [replace, List.append_assoc]
  have hp : (modified.take p).length = p := by simp; omega
  rw [← List.append_assoc, List.take_append_eq_append_take]
  simp [hp]

/-- The text before the search position is never changed by the loop: what has
been inserted is not scanned again. -/
theorem replace_loop_keeps_scanned (k v : Str) :
    ∀ (fuel : Nat) (modified : Str) (pos : Nat) (r : Str),
      replace_loop fuel k v modified pos = some r → r.take pos = modified.take pos := by
  intro fuel
  induction fuel with
  | zero => intro modified pos r h; simp [replace_loop] at h
  | succ fuel ih =>
    intro modified pos r h
    rw [replace_loop] at h
    cases hf : find modified k pos with
    | none =>
      simp only [hf, Option.some.injEq] at h
      rw [h]
    | some p =>
      simp only [hf] at h
      obtain ⟨h1, h2⟩ := find_some_bounds modified k pos p hf
      have h3 := ih _ _ _ h
      have h4 : (replace modified p k.length v).take (p + v.length) = modified.take p ++ v := by
        simp only [replace, List.append_assoc]
        have hp : (modified.take p).length = p := by simp; omega
        rw [← List.append_assoc, List.take_append_eq_append_take]
        simp [hp]
      have h5 : r.take pos = (r.take (p + v.length)).take pos := by
        rw [List.take_take]; congr 1; omega
      rw [h5, h3, h4]
      have hp : (modified.take p).length = p := by simp; omega
      rw [List.take_append_of_le_length (by omega), List.take_take]
      congr 1; omega

/-- With a non-empty key the replacement loop ends within as many iterations
as there are positions left to search, plus one. -/
theorem replace_loop_ends (k v : Str) (hk : k ≠ []) (fuel : Nat) (modified : Str) (pos : Nat)
    (hf : modified.length - pos < fuel) :
    ∃ r, replace_loop fuel k v modified pos = some r := by
  by_cases hpos : pos ≤ modified.length
  · have h := replace_loop_spec k v hk (modified.length - pos) fuel (modified.take pos)
      (modified.drop pos) (by simp) hf
    rw [List.take_append_drop] at h
    have hl : (modified.take pos).length = pos := by simp; omega
    rw [hl] at h
    exact ⟨_, h⟩
  · obtain ⟨f, rfl⟩ : ∃ f, fuel = f + 1 := ⟨fuel - 1, by omega⟩
    refine ⟨modified, ?_⟩
    simp [replace_loop, find, hpos]

/-- C12: when every `--src=` and `--output=` token before the delimiter has a
non-empty path, `parse_args` returns, with one result for every sufficient
fuel. Each replacement loop with a non-empty key resumes its search just past
the inserted text, so that the number of positions left to search decreases
with every replacement, whatever the resolved value; it ends within that many
iterations plus one and never changes the text before its search position. -/
theorem parse_args_terminates (win32 : Bool) (out_args : Args) (argv : List Str)
    (runfiles : Option Runfiles)
    (h : ∀ t ∈ (argv.drop 1).takeWhile (fun t => decide (t ≠ DELIMITER)),
      (FLAG_SRC <+: t → t.drop FLAG_SRC.length ≠ []) ∧
      (FLAG_OUTPUT <+: t → t.drop FLAG_OUTPUT.length ≠ [])) :
    (∃ (fuel0 : Nat) (res : Int × Args), ∀ fuel, fuel0 ≤ fuel →
      parse_args fuel win32 out_args argv runfiles = some res) ∧
    (∀ (k v modified : Str) (pos p : Nat), k ≠ [] → find modified k pos = some p →
      pos ≤ p ∧
      (replace modified p k.length v).take (p + v.length) = modified.take p ++ v ∧
      p + v.length ≤ (replace modified p k.length v).length ∧
      (replace modified p k.length v).length - (p + v.length) < modified.length - pos) ∧
    (∀ (k v modified : Str) (pos fuel : Nat), k ≠ [] → modified.length - pos < fuel →
      ∃ r, replace_loop fuel k v modified pos = some r ∧ r.take pos = modified.take pos) := by
  refine ⟨?_, ?_, ?_⟩
  · apply parse_args_total
    intro t ht
    obtain ⟨h1, h2⟩ := h t ht
    constructor
    · intro e
      exact h1 (by rw [e]) (by rw [e]; simp)
    · intro e
      exact h2 (by rw [e]) (by rw [e]; simp)
  · intro k v modified pos p hk hf
    exact replace_step_decreases k v modified pos p hk hf
  · intro k v modified pos fuel hk hf
    obtain ⟨r, hr⟩ := replace_loop_ends k v hk fuel modified pos hf
    exact ⟨r, hr, replace_loop_keeps_scanned k v fuel modified pos r hr⟩

theorem parse_args_terminates_witness :
    parse_args 5 false {} ["w".toList, "--src=a".toList, DELIMITER, "xaya".toList]
      (some slash_r) =
      some (0, { source_mappings := [("a".toList, "/r/a".toList)],
                 verilator_args := ["x/r/ay/r/a".toList] }) ∧
    ∃ (fuel0 : Nat) (res : Int × Args), ∀ fuel, fuel0 ≤ fuel →
      parse_args fuel false {} ["w".toList, "--src=a".toList, DELIMITER, "xaya".toList]
        (some slash_r) = some res :=
  ⟨by decide,
   (parse_args_terminates false {} ["w".toList, "--src=a".toList, DELIMITER, "xaya".toList]
     (some slash_r) (by decide)).1⟩

/-- With an empty key the replacement loop never ends: every search succeeds at
the search position itself. -/
theorem replace_loop_empty_key (v : Str) :
    ∀ (fuel : Nat) (modified : Str) (pos : Nat), pos ≤ modified.length →
      replace_loop fuel [] v modified pos = none := by
  intro fuel
  induction fuel with
  | zero => intro _ _ _; rfl
  | succ fuel ih =>
    intro modified pos hpos
    have hfind : find modified [] pos = some pos := by
      simp only [find, hpos, if_true]
      cases modified.drop pos with
      | nil => simp [find_from]
      | cons c s => simp [find_from]
    rw [replace_loop, hfind]
    simp only
    apply ih
    simp only [replace, List.length_append, List.length_take, List.length_drop, List.length_nil]
    omega

/-- An empty `--src=` path followed by a pass-through argument: the replacement
loop of `parse_args` does not end, whatever the fuel. -/
theorem parse_args_empty_key_diverges (fuel : Nat) (win32 : Bool) (out_args : Args)
    (a : Str) (ha : a ≠ DELIMITER) :
    parse_args fuel win32 out_args ["w".toList, FLAG_SRC, DELIMITER, a] none = none := by
  have h1 : FLAG_SRC ≠ DELIMITER := by decide
  have h2 : starts_with FLAG_SRC FLAG_VERILATOR = false := by decide
  have h3 : starts_with FLAG_SRC FLAG_SRC = true := by decide
  have h4 : List.drop 6 FLAG_SRC = [] := by decide
  unfold parse_args
  simp only [List.drop_one, List.tail_cons]
  rw [parse_loop, if_neg h1, if_neg Bool.false_ne_true, h2, if_neg Bool.false_ne_true, h3,
    if_pos rfl]
  simp only [h4]
  rw [parse_loop, if_pos rfl, parse_loop, if_neg ha, if_pos rfl]
  have h5 : substitute fuel (map_assign [] [] (resolve_path win32 [] none)) [] a = none := by
    simp only [map_assign, substitute, replace_mappings]
    rw [replace_loop_empty_key _ fuel a 0 (Nat.zero_le _)]
  simp only [h5]

theorem parse_args_empty_key_diverges_witness :
    parse_args 7 false {} ["w".toList, FLAG_SRC, DELIMITER, "x".toList] none = none :=
  parse_args_empty_key_diverges 7 false {} "x".toList (by decide)

/-! ### The lint output -/

theorem node_at_erase_other (fs : FS) (p q : Path) (h : q ≠ p) :
    node_at (fs_erase fs p) q = node_at fs q := by
  simp [node_at, fs_lookup_erase, h]

theorem node_at_write_other (fs : FS) (p q : Path) (n : Node) (h : q ≠ p) :
    node_at (fs_write fs p n) q = node_at fs q := by
  simp [node_at, fs_lookup_write, h]

/-- The call `fs::create_directories` keeps every node that exists. -/
theorem create_directories_from_keeps (absolute : Bool) :
    ∀ (rest : List Str) (fs : FS) (done : List Str) (fs' : FS),
      create_directories_from absolute fs done rest = some fs' →
      ∀ q n, node_at fs q = some n → node_at fs' q = some n := by
  intro rest
  induction rest with
  | nil =>
    intro fs done fs' h q n hq
    simp only [create_directories_from, Option.some.injEq] at h
    rw [← h]; exact hq
  | cons x rest ih =>
    intro fs done fs' h q n hq
    simp only [create_directories_from] at h
    cases hn : node_at fs { absolute := absolute, comps := done ++ [x] } with
    | none =>
      simp only [hn] at h
      apply ih _ _ _ h q n
      rw [node_at_write_other]
      · exact hq
      · intro e; rw [e, hn] at hq; simp at hq
    | some m =>
      cases m with
      | dir =>
        simp only [hn] at h
        exact ih _ _ _ h q n hq
      | file c' => simp [hn] at h

theorem create_directories_keeps (fs fs' : FS) (p : Path)
    (h : create_directories fs p = some fs') (q : Path) (n : Node)
    (hq : node_at fs q = some n) : node_at fs' q = some n :=
  create_directories_from_keeps p.absolute p.comps fs [] fs' h q n hq

/-- After `fs::create_directories` the path is a directory. -/
theorem create_directories_from_target (absolute : Bool) :
    ∀ (rest : List Str) (fs : FS) (done : List Str) (fs' : FS),
      create_directories_from absolute fs done rest = some fs' →
      node_at fs { absolute := absolute, comps := done } = some Node.dir →
      node_at fs' { absolute := absolute, comps := done ++ rest } = some Node.dir := by
  intro rest
  induction rest with
  | nil =>
    intro fs done fs' h hd
    simp only [create_directories_from, Option.some.injEq] at h
    rw [← h]; simpa using hd
  | cons x rest ih =>
    intro fs done fs' h hd
    simp only [create_directories_from] at h
    have hassoc : done ++ x :: rest = (done ++ [x]) ++ rest := by simp
    rw [hassoc]
    cases hn : node_at fs { absolute := absolute, comps := done ++ [x] } with
    | none =>
      simp only [hn] at h
      apply ih _ _ _ h
      rw [node_at_write _ _ _ _ (by simp)]
      simp
    | some m =>
      cases m with
      | dir =>
        simp only [hn] at h
        exact ih _ _ _ h hn
      | file c' => simp [hn] at h

theorem create_directories_target (fs fs' : FS) (p : Path)
    (h : create_directories fs p = some fs') : is_directory fs' p = true := by
  have := create_directories_from_target p.absolute p.comps fs [] fs' h (by simp [node_at])
  simpa [is_directory] using this

theorem parent_ne_self (p : Path) (h : p.comps ≠ []) : p.parent ≠ p := by
  intro e
  have := congrArg (fun q => q.comps.length) e
  simp only [Path.parent, List.length_dropLast] at this
  have : 0 < p.comps.length := List.length_pos.mpr h
  omega

/-- A touch that lets `main` go on has created the file, empty, and its
directory. -/
theorem touch_lint_output_creates (host : Host) (fs fs' : FS) (lint_output : Str)
    (henv : host.getenv LINT_OUTPUT = some lint_output)
    (h : touch_lint_output host fs = (Exit.returned 0, fs')) :
    node_at fs' (path_of lint_output) = some (Node.file []) ∧
    is_directory fs' (path_of (parent_path lint_output)) = true ∧
    is_directory fs' (path_of lint_output).parent = true := by
  simp only [touch_lint_output, henv] at h
  generalize hc : (if parent_path lint_output ≠ [] then
    create_directories fs (path_of (parent_path lint_output)) else some fs) = created at h
  cases created with
  | none => simp at h
  | some fs1 =>
    simp only at h
    have hpar : is_directory fs1 (path_of (parent_path lint_output)) = true := by
      split_ifs at hc with hp
      · exact create_directories_target _ _ _ hc
      · have : parent_path lint_output = [] := by simpa using hp
        rw [this]
        simp [is_directory, node_at, path_of, split_path]
    cases ho : ofstream_open fs1 lint_output with
    | none => simp [ho] at h
    | some fs2 =>
      simp only [ho, Prod.mk.injEq, true_and] at h
      subst h
      unfold ofstream_open at ho
      simp only at ho
      by_cases h1 : lint_output = [] ∨ lint_output.getLast? = some '/'
      · rw [if_pos h1] at ho; simp at ho
      rw [if_neg h1] at ho
      have hnd : node_at fs1 (path_of lint_output) ≠ some Node.dir := by
        intro e; simp [e] at ho
      have hcomps : (path_of lint_output).comps ≠ [] := by
        intro e; exact hnd (by simp [node_at, e])
      have hw : is_directory fs1 (path_of lint_output).parent = true ∧
          fs2 = fs_write fs1 (path_of lint_output) (Node.file []) := by
        by_cases h2 : is_directory fs1 (path_of lint_output).parent = true
        · refine ⟨h2, ?_⟩
          cases hn : node_at fs1 (path_of lint_output) with
          | none => simpa [hn, h2] using ho.symm
          | some m =>
            cases m with
            | dir => exact absurd hn hnd
            | file c => simpa [hn, h2] using ho.symm
        · exfalso
          cases hn : node_at fs1 (path_of lint_output) with
          | none => simp [hn, h2] at ho
          | some m =>
            cases m with
            | dir => exact absurd hn hnd
            | file c => simp [hn, h2] at ho
      obtain ⟨hw1, hw2⟩ := hw
      subst hw2
      refine ⟨by rw [node_at_write _ _ _ _ hcomps]; simp, ?_, ?_⟩
      · have hne : path_of (parent_path lint_output) ≠ path_of lint_output := by
          intro e
          rw [e] at hpar
          exact hnd (by simpa [is_directory] using hpar)
        simp only [is_directory, decide_eq_true_eq] at hpar ⊢
        rw [node_at_write_other _ _ _ _ hne]; exact hpar
      · simp only [is_directory, decide_eq_true_eq] at hw1 ⊢
        rw [node_at_write_other _ _ _ _ (parent_ne_self _ hcomps)]; exact hw1

theorem copy_file_keeps_dirs (fs fs' : FS) (src dst q : Path)
    (h : copy_file fs src dst = some fs') (hq : node_at fs q = some Node.dir) :
    node_at fs' q = some Node.dir := by
  have hne : q ≠ dst := by
    intro e
    subst e
    unfold copy_file at h
    cases hs : node_at fs src with
    | none => simp [hs] at h
    | some n =>
      cases n with
      | dir => simp [hs] at h
      | file c => simp [hs, hq] at h
  obtain ⟨c, _, _, _, h4⟩ := copy_file_some _ _ _ _ h
  rw [h4, node_at_write_other _ _ _ _ hne]
  exact hq

theorem fs_remove_other (fs fs' : FS) (p q : Path) (h : fs_remove fs p = some fs')
    (hne : q ≠ p) : node_at fs' q = node_at fs q := by
  unfold fs_remove at h
  have : fs' = fs_erase fs p := by
    split at h
    · split_ifs at h; exact (Option.some.inj h).symm
    · exact (Option.some.inj h).symm
  rw [this, node_at_erase_other _ _ _ hne]

/-- The loop of `copy_and_filter_outputs` never removes or replaces a
directory, however it ends. -/
theorem process_entries_keeps_dirs (dir_path : Path) (output_srcs output_hdrs : Str) (q : Path) :
    ∀ (names : List Str) (fs fs' : FS) (code : Option Int),
      process_entries dir_path output_srcs output_hdrs names fs = (code, fs') →
      node_at fs q = some Node.dir → node_at fs' q = some Node.dir := by
  intro names
  induction names with
  | nil =>
    intro fs fs' code h hq
    simp only [process_entries, Prod.mk.injEq] at h
    rw [← h.2]; exact hq
  | cons x rest ih =>
    intro fs fs' code h hq
    rw [process_entries] at h
    simp only at h
    by_cases hr : is_regular_file fs (dir_path.child x) = true
    · rw [if_pos hr] at h
      obtain ⟨c, hreg⟩ := (is_regular_file_iff _ _).mp hr
      have hqe : q ≠ dir_path.child x := by
        intro e; rw [e, hreg] at hq; simp at hq
      have tail : ∀ fs1 : FS, node_at fs1 q = some Node.dir →
          (if ends_with_any x source_extensions = true ∨
              ends_with_any x header_extensions = true then
            match fs_remove fs1 (dir_path.child x) with
            | none => (some 1, fs1)
            | some fs2 => process_entries dir_path output_srcs output_hdrs rest fs2
          else
            match fs_remove fs1 (dir_path.child x) with
            | none => (some 1, fs1)
            | some fs2 => process_entries dir_path output_srcs output_hdrs rest fs2) =
            (code, fs') →
          node_at fs' q = some Node.dir := by
        intro fs1 hq1 h'
        cases hrm : fs_remove fs1 (dir_path.child x) with
        | none =>
          simp only [hrm, ite_self, Prod.mk.injEq] at h'
          rw [← h'.2]; exact hq1
        | some fs2 =>
          simp only [hrm, ite_self] at h'
          apply ih _ _ _ h'
          rw [fs_remove_other _ _ _ _ hrm hqe]
          exact hq1
      cases hd : dest_path output_srcs output_hdrs x with
      | none =>
        simp only [hd] at h
        exact tail fs hq h
      | some dest =>
        simp only [hd] at h
        cases hcf : copy_file fs (dir_path.child x) dest with
        | none =>
          simp only [hcf, Prod.mk.injEq] at h
          rw [← h.2]; exact hq
        | some fs1 =>
          simp only [hcf] at h
          exact tail fs1 (copy_file_keeps_dirs _ _ _ _ _ hcf hq) h
    · rw [if_neg hr] at h
      exact ih _ _ _ h hq

/-- The function `copy_and_filter_outputs` never removes or replaces a
directory, however it ends. -/
theorem copy_and_filter_outputs_keeps_dirs (fs fs' : FS)
    (output_dir output_srcs output_hdrs : Str) (ending : Exit) (q : Path)
    (h : copy_and_filter_outputs fs output_dir output_srcs output_hdrs = (ending, fs'))
    (hq : node_at fs q = some Node.dir) : node_at fs' q = some Node.dir := by
  unfold copy_and_filter_outputs at h
  split at h
  · simp only [Prod.mk.injEq] at h; rw [← h.2]; exact hq
  · simp only at h
    split at h
    · simp only [Prod.mk.injEq] at h; rw [← h.2]; exact hq
    · generalize h1 : (if output_srcs ≠ [] then create_directories fs (path_of output_srcs)
          else some fs) = o1 at h
      cases o1 with
      | none => simp only [Prod.mk.injEq] at h; rw [← h.2]; exact hq
      | some fs1 =>
        simp only at h
        have hq1 : node_at fs1 q = some Node.dir := by
          split_ifs at h1
          · exact create_directories_keeps _ _ _ h1 q _ hq
          · simp only [Option.some.injEq] at h1; rw [← h1]; exact hq
        generalize h2 : (if output_hdrs ≠ [] then create_directories fs1 (path_of output_hdrs)
            else some fs1) = o2 at h
        cases o2 with
        | none => simp only [Prod.mk.injEq] at h; rw [← h.2]; exact hq1
        | some fs2 =>
          simp only at h
          have hq2 : node_at fs2 q = some Node.dir := by
            split_ifs at h2
            · exact create_directories_keeps _ _ _ h2 q _ hq1
            · simp only [Option.some.injEq] at h2; rw [← h2]; exact hq1
          rcases hpe : process_entries (path_of output_dir) output_srcs output_hdrs
              (directory_iterator fs2 (path_of output_dir)) fs2 with ⟨oc, fs3⟩
          rw [hpe] at h
          have hq3 := process_entries_keeps_dirs _ _ _ q _ _ _ _ hpe hq2
          cases oc with
          | some code => simp only [Prod.mk.injEq] at h; rw [← h.2]; exact hq3
          | none => simp only [Prod.mk.injEq] at h; rw [← h.2]; exact hq3

theorem copy_outputs_keeps_dirs (output_srcs output_hdrs : Str) (q : Path) :
    ∀ (m : List (Str × Str)) (fs fs' : FS) (ending : Exit),
      copy_outputs output_srcs output_hdrs m fs = (ending, fs') →
      node_at fs q = some Node.dir → node_at fs' q = some Node.dir := by
  intro m
  induction m with
  | nil =>
    intro fs fs' ending h hq
    simp only [copy_outputs, Prod.mk.injEq] at h
    rw [← h.2]; exact hq
  | cons kv rest ih =>
    intro fs fs' ending h hq
    obtain ⟨d, v⟩ := kv
    rw [copy_outputs] at h
    rcases hc : copy_and_filter_outputs fs d output_srcs output_hdrs with ⟨e, fs1⟩
    rw [hc] at h
    have hq1 := copy_and_filter_outputs_keeps_dirs _ _ _ _ _ _ q hc hq
    cases e with
    | terminated => simp only [Prod.mk.injEq] at h; rw [← h.2]; exact hq1
    | returned c =>
      simp only at h
      split_ifs at h
      · simp only [Prod.mk.injEq] at h; rw [← h.2]; exact hq1
      · exact ih _ _ _ h hq1

theorem child_parent (d : Path) (n : Str) : (d.child n).parent = d := by
  simp [Path.child, Path.parent]

/-- A successful call of `copy_and_filter_outputs` leaves alone every regular
file that lies directly inside none of the output directory and the two
destinations. -/
theorem copy_and_filter_outputs_keeps_file (fs fs' : FS)
    (output_dir output_srcs output_hdrs : Str) (p : Path) (c : Str)
    (h : copy_and_filter_outputs fs output_dir output_srcs output_hdrs =
      (Exit.returned 0, fs'))
    (hp : node_at fs p = some (Node.file c))
    (hd : output_dir ≠ [] → p.parent ≠ path_of output_dir)
    (hs : output_srcs ≠ [] → p.parent ≠ path_of output_srcs)
    (hh : output_hdrs ≠ [] → p.parent ≠ path_of output_hdrs) :
    node_at fs' p = some (Node.file c) := by
  by_cases hg : output_dir = [] ∨ (output_srcs = [] ∧ output_hdrs = [])
  · simp only [copy_and_filter_outputs, hg, if_true, Prod.mk.injEq, true_and] at h
    rw [← h]; exact hp
  · have hdir : output_dir ≠ [] := fun e => hg (Or.inl e)
    have hconf : output_srcs ≠ [] ∨ output_hdrs ≠ [] := by
      by_contra hn
      apply hg
      right
      constructor
      · by_contra e; exact hn (Or.inl e)
      · by_contra e; exact hn (Or.inr e)
    rcases copy_and_filter_outputs_stages fs fs' output_dir output_srcs output_hdrs _ hdir
      hconf h with (h1 | h1) | ⟨fs2, hfiles, hloop, _⟩
    · simp at h1
    · simp at h1
    obtain ⟨_, hB⟩ := process_entries_spec _ _ _ _ _ _ (nodup_directory_iterator _ _) hloop
    rw [hB p ?_]
    · exact (hfiles p c).mpr hp
    · intro n _ c' _
      constructor
      · intro e
        apply hd hdir
        rw [e, child_parent]
      · intro e
        unfold dest_path at e
        split_ifs at e with c1 c2
        · apply hs c1.1
          rw [← Option.some.inj e, child_parent]
        · apply hh c2.1
          rw [← Option.some.inj e, child_parent]

theorem copy_outputs_keeps_file (output_srcs output_hdrs : Str) (p : Path) (c : Str)
    (hs : output_srcs ≠ [] → p.parent ≠ path_of output_srcs)
    (hh : output_hdrs ≠ [] → p.parent ≠ path_of output_hdrs) :
    ∀ (m : List (Str × Str)) (fs fs' : FS),
      copy_outputs output_srcs output_hdrs m fs = (Exit.returned 0, fs') →
      (∀ kv ∈ m, kv.1 ≠ [] → p.parent ≠ path_of kv.1) →
      node_at fs p = some (Node.file c) → node_at fs' p = some (Node.file c) := by
  intro m
  induction m with
  | nil =>
    intro fs fs' h _ hp
    simp only [copy_outputs, Prod.mk.injEq, true_and] at h
    rw [← h]; exact hp
  | cons kv rest ih =>
    intro fs fs' h hm hp
    obtain ⟨d, v⟩ := kv
    rw [copy_outputs] at h
    rcases hc : copy_and_filter_outputs fs d output_srcs output_hdrs with ⟨e, fs1⟩
    rw [hc] at h
    cases e with
    | terminated => simp at h
    | returned code =>
      simp only at h
      by_cases h0 : code = 0
      · subst h0
        simp only [ne_eq, not_true_eq_false, if_false] at h
        apply ih _ _ h (fun kv hmem => hm kv (List.mem_cons_of_mem _ hmem))
        exact copy_and_filter_outputs_keeps_file _ _ _ _ _ p c hc hp
          (hm (d, v) (List.mem_cons_self _ _)) hs hh
      · simp [h0] at h

/-- C11 (amended): for every run that reaches the wrapped command: when the
command's result is non-zero, `main` returns it before the touch and leaves
the file system as the command left it. When the result is 0 and
`RULES_VERILOG_VERILATOR_LINT_OUTPUT` is set, a touch that succeeds leaves an
empty file at the path and its parent directory; a touch that fails makes
`main` return 1 or ends the run; and when `main` returns 0 the empty file and
its directory are there in the final state, provided the file lies directly
inside none of the output directories and destinations that the
reorganisation works on. -/
theorem lint_output_touched_on_success (fuel : Nat) (host : Host) (fs fs1 : FS)
    (argv : List Str) (args : Args) (cmd captured : Str) (result : Int) (r : Run)
    (hargs : main_args fuel host fs argv = some (0, args))
    (hcmd : build_command args = some cmd)
    (hx : execute_command host fs cmd args.capture_output [] = (result, captured, fs1))
    (hmain : main fuel host fs argv = some r) :
    (result ≠ 0 → r.exit = Exit.returned result ∧ r.fs = fs1) ∧
    (result = 0 → ∀ lint_output, host.getenv LINT_OUTPUT = some lint_output →
      (∀ fs2, touch_lint_output host fs1 = (Exit.returned 0, fs2) →
        node_at fs2 (path_of lint_output) = some (Node.file []) ∧
        is_directory fs2 (path_of (parent_path lint_output)) = true ∧
        is_directory fs2 (path_of lint_output).parent = true) ∧
      ((touch_lint_output host fs1).1 ≠ Exit.returned 0 →
        (r.exit = Exit.returned 1 ∨ r.exit = Exit.terminated) ∧
        r.fs = (touch_lint_output host fs1).2) ∧
      (r.exit = Exit.returned 0 →
        (args.output_srcs ≠ [] ∨ args.output_hdrs ≠ [] →
          ∀ kv ∈ args.output_mappings, kv.1 ≠ [] →
            (path_of lint_output).parent ≠ path_of kv.1) →
        (args.output_srcs ≠ [] → (path_of lint_output).parent ≠ path_of args.output_srcs) →
        (args.output_hdrs ≠ [] → (path_of lint_output).parent ≠ path_of args.output_hdrs) →
        node_at r.fs (path_of lint_output) = some (Node.file []) ∧
        is_directory r.fs (path_of (parent_path lint_output)) = true ∧
        is_directory r.fs (path_of lint_output).parent = true)) := by
  simp only [main, hargs, hcmd, ne_eq, not_true_eq_false, if_false] at hmain
  rw [hx] at hmain
  simp only at hmain
  constructor
  · intro hr
    simp only [hr, not_false_eq_true, if_true, Option.some.injEq] at hmain
    subst hmain
    exact ⟨rfl, rfl⟩
  · intro hr lint_output henv
    subst hr
    simp only [not_true_eq_false, if_false] at hmain
    refine ⟨fun fs2 ht => touch_lint_output_creates host fs1 fs2 lint_output henv ht, ?_, ?_⟩
    · intro hne
      rcases ht : touch_lint_output host fs1 with ⟨ending, fs2⟩
      rw [ht] at hmain hne
      cases ending with
      | terminated =>
        simp only [Option.some.injEq] at hmain
        subst hmain
        exact ⟨Or.inr rfl, rfl⟩
      | returned code =>
        have hc : code ≠ 0 := fun e => hne (by rw [e])
        simp only [ne_eq, hc, not_false_eq_true, if_true, Option.some.injEq] at hmain
        subst hmain
        exact ⟨Or.inl rfl, rfl⟩
    · intro hexit hkeys hsrcs hhdrs
      rcases ht : touch_lint_output host fs1 with ⟨ending, fs2⟩
      rw [ht] at hmain
      cases ending with
      | terminated =>
        simp only [Option.some.injEq] at hmain
        subst hmain
        simp at hexit
      | returned code =>
        simp only at hmain
        by_cases hc : code = 0
        · subst hc
          simp only [ne_eq, not_true_eq_false, if_false] at hmain
          obtain ⟨h1, h2, h3⟩ := touch_lint_output_creates host fs1 fs2 lint_output henv ht
          by_cases hconf : args.output_srcs ≠ [] ∨ args.output_hdrs ≠ []
          · rw [if_pos hconf] at hmain
            rcases hco : copy_outputs args.output_srcs args.output_hdrs args.output_mappings fs2
              with ⟨ending, fs3⟩
            rw [hco] at hmain
            simp only [Option.some.injEq] at hmain
            subst hmain
            simp only at hexit ⊢
            subst hexit
            simp only [is_directory, decide_eq_true_eq] at h2 h3 ⊢
            exact ⟨copy_outputs_keeps_file _ _ _ _ hsrcs hhdrs _ _ _ hco (hkeys hconf) h1,
              copy_outputs_keeps_dirs _ _ _ _ _ _ _ hco h2,
              copy_outputs_keeps_dirs _ _ _ _ _ _ _ hco h3⟩
          · rw [if_neg hconf] at hmain
            simp only [Option.some.injEq] at hmain
            subst hmain
            exact ⟨h1, h2, h3⟩
        · simp only [ne_eq, hc, not_false_eq_true, if_true, Option.some.injEq] at hmain
          subst hmain
          simp only [Exit.returned.injEq] at hexit
          simp at hexit

theorem lint_output_touched_on_success_witness :
    main 0 (lint_host "lint/ok.txt".toList source_outputs) []
        ["w".toList, "--verilator=v".toList, "--output=out".toList, "--output_srcs=S".toList] =
      some { exit := Exit.returned 0, stdout := [], launched := ["v ".toList],
             result := some 0, captured_output := [],
             fs := [ (path_of "S/a.cc".toList, Node.file "A".toList),
                     (path_of "S".toList, Node.dir),
                     (path_of "lint/ok.txt".toList, Node.file []),
                     (path_of "lint".toList, Node.dir),
                     (path_of "out".toList, Node.dir) ] } ∧
    node_at [ (path_of "S/a.cc".toList, Node.file "A".toList),
              (path_of "S".toList, Node.dir),
              (path_of "lint/ok.txt".toList, Node.file []),
              (path_of "lint".toList, Node.dir),
              (path_of "out".toList, Node.dir) ] (path_of "lint/ok.txt".toList) =
      some (Node.file []) :=
  ⟨by decide,
   (((lint_output_touched_on_success 0 (lint_host "lint/ok.txt".toList source_outputs) []
      source_outputs
      ["w".toList, "--verilator=v".toList, "--output=out".toList, "--output_srcs=S".toList]
      { verilator_binary := "v".toList, output_mappings := [("out".toList, "out".toList)],
        output_srcs := "S".toList }
      "v ".toList [] 0
      { exit := Exit.returned 0, stdout := [], launched := ["v ".toList],
        result := some 0, captured_output := [],
        fs := [ (path_of "S/a.cc".toList, Node.file "A".toList),
                (path_of "S".toList, Node.dir),
                (path_of "lint/ok.txt".toList, Node.file []),
                (path_of "lint".toList, Node.dir),
                (path_of "out".toList, Node.dir) ] }
      (by decide) (by decide) (by decide) (by decide)).2 rfl "lint/ok.txt".toList
        (by decide)).2.2 rfl (by decide) (by decide) (by decide)).1⟩

/-- C11 (counterexample): the command exits with code 0 and the variable is
set, yet no empty file is at the path afterwards: when the path names an
existing directory `d` the touch fails and `main` returns 1; and when the path
lies inside the output directory that is reorganised, `main` returns 0 after
the reorganisation has deleted the file. -/
theorem lint_output_missing_after_success :
    main 0 (lint_host "d".toList []) [(path_of "d".toList, Node.dir)]
        ["w".toList, "--verilator=v".toList] =
      some { exit := Exit.returned 1, stdout := [], launched := ["v ".toList],
             result := some 0, captured_output := [],
             fs := [(path_of "d".toList, Node.dir)] } ∧
    node_at [(path_of "d".toList, Node.dir)] (path_of "d".toList) = some Node.dir ∧
    main 0 (lint_host "out/lint.ok".toList source_outputs) []
        ["w".toList, "--verilator=v".toList, "--output=out".toList, "--output_srcs=S".toList] =
      some { exit := Exit.returned 0, stdout := [], launched := ["v ".toList],
             result := some 0, captured_output := [],
             fs := [ (path_of "S/a.cc".toList, Node.file "A".toList),
                     (path_of "S".toList, Node.dir),
                     (path_of "out".toList, Node.dir) ] } ∧
    node_at [ (path_of "S/a.cc".toList, Node.file "A".toList),
              (path_of "S".toList, Node.dir),
              (path_of "out".toList, Node.dir) ] (path_of "out/lint.ok".toList) = none := by
  refine ⟨by decide, by decide, by decide, by decide⟩

end VerilatorWrapper
